import Mathlib

/-!
Shallow embedding of the BER codec core of `asn1tools` (file
`asn1tools/codecs/ber.py`) and verification of its specified properties.

Byte buffers are modelled as `List Nat` (each entry a byte value), offsets as
`Nat`.  Python exceptions become an explicit error type `DecErr` / `EncErr`
threaded through `Except`; the sentinel `TAG_MISMATCH` return value becomes the
`DecRes.mismatch` constructor, mirroring the source's non-exceptional
tag-mismatch protocol.
-/

namespace Ber

/-- Python byte-string slice `data[a:b]`. -/
def slice (data : List Nat) (a b : Nat) : List Nat :=
  (data.drop a).take (b - a)

/-- Big-endian value of a byte string, `int(binascii.hexlify(s), 16)`. -/
def beVal (bs : List Nat) : Nat :=
  bs.foldl (fun acc b => 256 * acc + b) 0

/-- Decode errors.  Each constructor mirrors one exception class of the source
(`OutOfByteDataError`, `MissingDataError`, `DecodeError`, `DecodeTagError`,
`MissingMandatoryFieldError`, `NoEndOfContentsTagError`, the `Enumerated`
decode error), carrying the fields the source formats into the message plus the
accumulated member-name location path (`ErrorWithLocation`, modelled from the
spec: errors accumulate the dotted member-name path as they unwind). -/
inductive DecErr where
  | outOfData (msg : String) (offset : Nat) (loc : List String)
  | missingData (msg : String) (offset : Nat) (expectedLength : Nat) (loc : List String)
  | decodeErr (msg : String) (offset : Nat) (loc : List String)
  | tagErr (expected : List (List Nat)) (actual : List Nat) (offset : Nat) (loc : List String)
  | missingMandatory (member : String) (offset : Nat) (loc : List String)
  | noEOC (msg : String) (offset : Nat) (loc : List String)
  | enumErr (expectedValues : List Int) (got : Int) (offset : Nat) (loc : List String)
  | internal (msg : String) (offset : Nat) (loc : List String)
deriving DecidableEq, Repr

/-- Source `ErrorWithLocation.add_location` (modelled from the spec: prepends the
member name to the accumulated location path). -/
def DecErr.addLoc : DecErr → String → DecErr
  | .outOfData m o l, n => .outOfData m o (n :: l)
  | .missingData m o e l, n => .missingData m o e (n :: l)
  | .decodeErr m o l, n => .decodeErr m o (n :: l)
  | .tagErr e a o l, n => .tagErr e a o (n :: l)
  | .missingMandatory mem o l, n => .missingMandatory mem o (n :: l)
  | .noEOC m o l, n => .noEOC m o (n :: l)
  | .enumErr e g o l, n => .enumErr e g o (n :: l)
  | .internal m o l, n => .internal m o (n :: l)

/-- Encode errors (`EncodeError`). -/
inductive EncErr where
  | memberNotFound (typeName : String) (member : String) (loc : List String)
  | badChoice (expected : List String) (got : String) (loc : List String)
  | typeMismatch (expected : String) (loc : List String)
deriving DecidableEq, Repr

def EncErr.addLoc : EncErr → String → EncErr
  | .memberNotFound t m l, n => .memberNotFound t m (n :: l)
  | .badChoice e g l, n => .badChoice e g (n :: l)
  | .typeMismatch e l, n => .typeMismatch e (n :: l)

/-! ## Length encoding and decoding (`encode_length_definite` / `decode_length`) -/

/-- The little-endian byte digits accumulated by `encode_length_definite`'s
loop (`while length > 0: encoded.append(length & 0xff); length >>= 8`). -/
def lengthBytesLE (n : Nat) : List Nat :=
  if h : n = 0 then []
  else (n % 256) :: lengthBytesLE (n / 256)
termination_by n
decreasing_by exact Nat.div_lt_self (Nat.pos_of_ne_zero h) (by omega)

/-- Source `encode_length_definite`: short form for lengths up to 127, otherwise a
`0x80 | k` length-of-length byte followed by the big-endian digits. -/
def encode_length_definite (length : Nat) : List Nat :=
  if length ≤ 127 then [length]
  else (0x80 ||| (lengthBytesLE length).length) :: (lengthBytesLE length).reverse

def lengthReadMsg : String := "Ran out of data when trying to read length"

def definiteLenMsg : String := "Expected definite length, but got indefinite."

def longLenMsg (k off got : Nat) : String :=
  s!"Expected {k} length byte(s) at offset {off}, but got {got}."

def missingDataMsg (len avail : Nat) : String :=
  s!"Expected at least {len} contents byte(s), but got {avail}."

/-- Source `decode_length(encoded, offset, enforce_definite)`: returns
`(length?, new_offset)` where `none` stands for indefinite length, or raises
the error the source raises.  Mirrors the source exactly, including the early
return for indefinite length (which skips the missing-data check) and the
final missing-data check applying to both short and long definite forms. -/
def decode_length (encoded : List Nat) (offset : Nat) (enforceDefinite : Bool) :
    Except DecErr (Option Nat × Nat) :=
  match encoded[offset]? with
  | none => .error (.outOfData lengthReadMsg offset [])
  | some b =>
    let offset1 := offset + 1
    if b &&& 0x80 ≠ 0 then
      if b = 128 then
        if enforceDefinite then .error (.decodeErr definiteLenMsg (offset1 - 1) [])
        else .ok (none, offset1)
      else
        let numberOfBytes := b &&& 0x7f
        let encodedLength := slice encoded offset1 (numberOfBytes + offset1)
        if encodedLength.length ≠ numberOfBytes then
          .error (.outOfData (longLenMsg numberOfBytes offset1 encodedLength.length) offset1 [])
        else
          let length := beVal encodedLength
          let offset2 := offset1 + numberOfBytes
          if offset2 + length > encoded.length then
            .error (.missingData (missingDataMsg length (encoded.length - offset2)) offset2 length [])
          else .ok (some length, offset2)
    else
      if offset1 + b > encoded.length then
        .error (.missingData (missingDataMsg b (encoded.length - offset1)) offset1 b [])
      else .ok (some b, offset1)

/-! ## Signed integers (`encode_signed_integer` and `Integer` content codec) -/

/-- Python `int.bit_length()` on a natural number, via structural fuel
recursion (`n` itself always being enough fuel). -/
def bitLengthAux : Nat → Nat → Nat
  | 0, _ => 0
  | fuel + 1, n => if n = 0 then 0 else bitLengthAux fuel (n / 2) + 1

def bitLength (n : Nat) : Nat :=
  bitLengthAux n n

/-- Source `byte_length = (8 + (number + (number < 0)).bit_length()) // 8`. -/
def signedByteLength (n : Int) : Nat :=
  (8 + bitLength (n + if n < 0 then 1 else 0).natAbs) / 8

/-- Fixed-width big-endian byte string of a natural number (the digits
`int.to_bytes` emits). -/
def natBEBytes : Nat → Nat → List Nat
  | _, 0 => []
  | v, L + 1 => natBEBytes (v / 256) L ++ [v % 256]

/-- Python `number.to_bytes(length=L, byteorder='big', signed=True)`:
two's-complement representation over `L` bytes. -/
def toSignedBE (n : Int) (L : Nat) : List Nat :=
  natBEBytes ((n % (2 ^ (8 * L) : Nat)).toNat) L

/-- Source `encode_signed_integer`. -/
def encode_signed_integer (n : Int) : List Nat :=
  toSignedBE n (signedByteLength n)

/-- Python `int.from_bytes(bs, byteorder='big', signed=True)`. -/
def fromSignedBE (bs : List Nat) : Int :=
  let u := beVal bs
  if bs.length = 0 then 0
  else if 2 ^ (8 * bs.length - 1) ≤ u then (u : Int) - (2 ^ (8 * bs.length) : Nat)
  else u

/-! ## Tags (`encode_tag`, `skip_tag`, `read_tag`, `skip_tag_length_contents`) -/

def tagReadMsg : String := "Ran out of data when reading tag"

/-- The continuation scan of `skip_tag`
(`while data[offset] & 0x80: offset += 1` followed by `offset += 1`),
phrased structurally on the unread suffix of the buffer. -/
def skipTagContAux : List Nat → Nat → Except DecErr Nat
  | [], offset => .error (.outOfData tagReadMsg offset [])
  | b :: rest, offset =>
    if b &&& 0x80 ≠ 0 then skipTagContAux rest (offset + 1) else .ok (offset + 1)

def skipTagCont (data : List Nat) (offset : Nat) : Except DecErr Nat :=
  skipTagContAux (data.drop offset) offset

/-- Source `skip_tag` without its final lookahead check (the `try` block). -/
def skipTagCore (data : List Nat) (offset : Nat) : Except DecErr Nat :=
  match data[offset]? with
  | none => .error (.outOfData tagReadMsg offset [])
  | some b =>
    if b &&& 0x1f = 0x1f then skipTagCont data (offset + 1) else .ok (offset + 1)

/-- Source `skip_tag`: skips one encoded tag and then demands that at least one more
byte remains (`if offset >= len(data): raise OutOfByteDataError(...)`). -/
def skip_tag (data : List Nat) (offset : Nat) : Except DecErr Nat :=
  match skipTagCore data offset with
  | .error e => .error e
  | .ok off =>
    if off ≥ data.length then .error (.outOfData tagReadMsg off []) else .ok off

/-- Source `read_tag(data, offset) = data[offset:skip_tag(data, offset)]`. -/
def read_tag (data : List Nat) (offset : Nat) : Except DecErr (List Nat) :=
  match skip_tag data offset with
  | .error e => .error e
  | .ok off => .ok (slice data offset off)

/-- Source `skip_tag_length_contents`: offset just past one tag+length+contents
triple (`sum(decode_length(data, skip_tag(data, offset)))`).  The length is
always definite here because `decode_length` is called with its default
`enforce_definite=True`. -/
def skip_tag_length_contents (data : List Nat) (offset : Nat) : Except DecErr Nat :=
  match skip_tag data offset with
  | .error e => .error e
  | .ok off1 =>
    match decode_length data off1 true with
    | .error e => .error e
    | .ok (len, off2) => .ok (len.getD 0 + off2)

/-- Source `decode_full_length`: total span of one element, `None` when the tag (or
the length bytes) cannot be read, the `offset + expected_length` estimate when
the contents are shorter than declared.  A plain `DecodeError` (indefinite
length) is not caught and still propagates. -/
def decode_full_length (data : List Nat) : Except DecErr (Option Nat) :=
  match skip_tag_length_contents data 0 with
  | .ok n => .ok (some n)
  | .error (.missingData _ off expected _) => .ok (some (off + expected))
  | .error (.outOfData _ _ _) => .ok none
  | .error e => .error e

/-! ## Native values

Python values handled by the embedded fragment: booleans, ints, `None`,
byte strings, BIT STRING `(bytes, bit_count)` pairs, member-name-to-value
dictionaries (`OrderedDict`, as an ordered association list), CHOICE
`(name, value)` pairs and the `(None, None)` placeholder a Choice with an
extension marker decodes unknown alternatives to.  `mismatchV` stands for the
`TAG_MISMATCH` sentinel object in the (reachable, if pathological) case where
`Choice.decode` wraps a member's `TAG_MISMATCH` result into its
`(member.name, decoded)` return value. -/

mutual

inductive Value where
  | bool (b : Bool)
  | int (n : Int)
  | null
  | bytes (bs : List Nat)
  | bits (bs : List Nat) (numberOfBits : Nat)
  | seq (fields : FieldList)
  | choiceV (name : String) (val : Value)
  | choiceEmpty
  | mismatchV

inductive FieldList where
  | nil
  | cons (name : String) (v : Value) (rest : FieldList)

end

mutual

/-- Python structural equality (`==`) on the embedded values.  Dictionary
comparison is modelled on the ordered association list, so it is
order-sensitive where Python's `dict.__eq__` is not; the round-trip theorems
only compare values in canonical (declared-member) order. -/
def beqValue : Value → Value → Bool
  | .bool a, .bool b => a == b
  | .int a, .int b => a == b
  | .null, .null => true
  | .bytes a, .bytes b => a == b
  | .bits a m, .bits b n => a == b && m == n
  | .seq a, .seq b => beqFields a b
  | .choiceV n v, .choiceV m w => n == m && beqValue v w
  | .choiceEmpty, .choiceEmpty => true
  | .mismatchV, .mismatchV => true
  | _, _ => false

def beqFields : FieldList → FieldList → Bool
  | .nil, .nil => true
  | .cons k v rest, .cons k2 v2 rest2 => k == k2 && beqValue v v2 && beqFields rest rest2
  | _, _ => false

end

instance : BEq Value := ⟨beqValue⟩

/-- Python `name in data` / `data[name]` on the value dictionary. -/
def FieldList.lookup : FieldList → String → Option Value
  | .nil, _ => none
  | .cons k v rest, n => if k = n then some v else FieldList.lookup rest n

/-- Python `values[name] = value`: overwrite in place when the key exists
(keeping its position), append otherwise. -/
def FieldList.insert : FieldList → String → Value → FieldList
  | .nil, n, v => .cons n v .nil
  | .cons k w rest, n, v =>
    if k = n then .cons k v rest else .cons k w (FieldList.insert rest n v)

def FieldList.append : FieldList → FieldList → FieldList
  | .nil, ys => ys
  | .cons k v rest, ys => .cons k v (FieldList.append rest ys)

def FieldList.keys : FieldList → List String
  | .nil => []
  | .cons k _ rest => k :: FieldList.keys rest

def FieldList.isEmpty : FieldList → Bool
  | .nil => true
  | .cons _ _ _ => false

/-- Result of one node-level decode call: either a decoded value with the new
offset, or the `TAG_MISMATCH` sentinel (returned together with the unchanged
start offset, exactly as the source returns `TAG_MISMATCH, start_offset`). -/
inductive DecRes where
  | mismatch (offset : Nat)
  | ok (v : Value) (offset : Nat)

/-- Source `DecodeTagError(asn_type, data, offset, ...)`: the actual tag is
read back from the data, via a fixed-width slice when the type knows its tag
length and via `read_tag` (whose own out-of-data error would propagate)
otherwise. -/
def throwTagError {α : Type} (expected : List (List Nat)) (tagLen : Option Nat)
    (data : List Nat) (offset : Nat) (loc : List String) : Except DecErr α :=
  match tagLen with
  | some L => .error (.tagErr expected (slice data offset (offset + L)) offset loc)
  | none =>
    match read_tag data offset with
    | .error e => .error e
    | .ok t => .error (.tagErr expected t offset loc)

/-! ## End-of-data detection (`detect_end_of_contents_tag` / `is_end_of_data`) -/

def eocMsg : String :=
  "Ran out of data when trying to find End of Contents tag for indefinite length field"

def detect_end_of_contents_tag (data : List Nat) (offset : Nat) : Except DecErr Bool :=
  let twoBytes := slice data offset (offset + 2)
  if twoBytes = [0, 0] then .ok true
  else if twoBytes.length ≠ 2 then .error (.outOfData eocMsg offset [])
  else .ok false

def is_end_of_data (data : List Nat) (offset : Nat) (endOffset : Option Nat) :
    Except DecErr (Bool × Nat) :=
  match endOffset with
  | some e => .ok (offset ≥ e, offset)
  | none =>
    match detect_end_of_contents_tag data offset with
    | .error er => .error er
    | .ok true => .ok (true, offset + 2)
    | .ok false => .ok (false, offset)

/-! ## Standard scalar decode/encode mixins -/

/-- Source `StandardDecodeMixin.decode`: compare the fixed tag slice, return
`TAG_MISMATCH` on a full-width mismatch and an out-of-data error on a short
read, then decode the length (definite enforced unless the node allows
indefinite) and hand off to the type-specific content decoder. -/
def standardDecode (tag : List Nat) (indefiniteAllowed : Bool)
    (decodeContent : List Nat → Nat → Option Nat → Except DecErr (Value × Nat))
    (data : List Nat) (startOffset : Nat) : Except DecErr DecRes :=
  let tagLen := tag.length
  let offset := startOffset + tagLen
  let tagData := slice data startOffset offset
  if tagData = tag then
    match decode_length data offset (!indefiniteAllowed) with
    | .error e => .error e
    | .ok (length, offset1) =>
      match decodeContent data offset1 length with
      | .error e => .error e
      | .ok (v, endOffset) => .ok (.ok v endOffset)
  else if tagData.length ≠ tagLen then
    .error (.outOfData tagReadMsg startOffset [])
  else .ok (.mismatch startOffset)

/-- Source `StandardEncodeMixin.encode`: tag, definite length of the content,
content. -/
def standardEncode (tag : List Nat) (encodeContent : Value → Except EncErr (List Nat))
    (v : Value) : Except EncErr (List Nat) :=
  match encodeContent v with
  | .error e => .error e
  | .ok c => .ok (tag ++ encode_length_definite c.length ++ c)

/-! ## Scalar content codecs (`Boolean`, `Integer`, `Null`, `OctetString`,
`BitString`, `Enumerated`) -/

def optLenStr : Option Nat → String
  | none => "None"
  | some l => toString l

def boolLenMsg (length : Option Nat) : String :=
  s!"Expected BOOLEAN contents length 1, but got {optLenStr length}."

def boolDecodeContent (data : List Nat) (offset : Nat) (length : Option Nat) :
    Except DecErr (Value × Nat) :=
  if length ≠ some 1 then .error (.decodeErr (boolLenMsg length) (offset - 1) [])
  else
    match data[offset]? with
    | some b => .ok (.bool (b != 0), offset + 1)
    | none => .error (.internal "index out of range" offset [])

def boolEncodeContent : Value → Except EncErr (List Nat)
  | .bool b => .ok [0xff * (if b then 1 else 0)]
  | _ => .error (.typeMismatch "BOOLEAN" [])

def intDecodeContent (data : List Nat) (offset : Nat) (length : Option Nat) :
    Except DecErr (Value × Nat) :=
  match length with
  | some L => .ok (.int (fromSignedBE (slice data offset (offset + L))), offset + L)
  | none => .error (.internal "indefinite length" offset [])

def intEncodeContent : Value → Except EncErr (List Nat)
  | .int n => .ok (encode_signed_integer n)
  | _ => .error (.typeMismatch "INTEGER" [])

/-- Source `Null.decode_content`: `return None, offset` (the length is
ignored). -/
def nullDecodeContent (_data : List Nat) (offset : Nat) (_length : Option Nat) :
    Except DecErr (Value × Nat) :=
  .ok (.null, offset)

/-- Source `Null.encode`: emits `05 00` regardless of the supplied value. -/
def nullEncode (_v : Value) : Except EncErr (List Nat) :=
  .ok [5, 0]

def octetEncodeContent : Value → Except EncErr (List Nat)
  | .bytes bs => .ok bs
  | _ => .error (.typeMismatch "OCTET STRING" [])

def octetDecodePrim (data : List Nat) (offset : Nat) (length : Nat) : Value :=
  .bytes (slice data offset (offset + length))

def valueBytes : Value → List Nat
  | .bytes bs => bs
  | _ => []

def octetCombine (segments : List Value) : Value :=
  .bytes (segments.map valueBytes).flatten

def bitStringDecodePrim (data : List Nat) (offset : Nat) (length : Nat) : Value :=
  .bits (slice data (offset + 1) (offset + 1 + (length - 1)))
    (8 * (length - 1) - data.getD offset 0)

def valueBitsPair : Value → List Nat × Nat
  | .bits bs n => (bs, n)
  | _ => ([], 0)

def bitStringCombine (segments : List Value) : Value :=
  .bits (segments.map fun s => (valueBitsPair s).1).flatten
    ((segments.map fun s => (valueBitsPair s).2).foldl (· + ·) 0)

/-- Source `BitString.encode_content`: first content byte counts the unused
trailing bits of the last byte, which is explicitly masked down to the
declared bit count. -/
def bitStringEncodeContent : Value → Except EncErr (List Nat)
  | .bits bs n =>
    let numberOfBytes := n / 8
    let numberOfRestBits := n % 8
    if numberOfRestBits = 0 then .ok (0 :: bs.take numberOfBytes)
    else
      match bs[numberOfBytes]? with
      | none => .error (.typeMismatch "BIT STRING" [])
      | some lastByte =>
        .ok ((8 - numberOfRestBits) ::
          (bs.take numberOfBytes ++ [lastByte &&& ((0xff >>> numberOfRestBits) ^^^ 0xff)]))
  | _ => .error (.typeMismatch "BIT STRING" [])

/-- Modelled from the spec: `clean_bit_string_value` is imported from the
compiler module, which is not among the provided sources.  Per §9 the BIT
STRING default comparison happens "after masking unused trailing bits", so the
value's byte string is masked down to its declared bit count with the same
mask `encode_content` applies; the named-bits flag is accepted but plays no
role in the mask the spec describes. -/
def clean_bit_string_value (value : List Nat × Nat) (_hasNamedBits : Bool) : List Nat × Nat :=
  let numberOfBytes := value.2 / 8
  let numberOfRestBits := value.2 % 8
  if numberOfRestBits = 0 then (value.1.take numberOfBytes, value.2)
  else
    (value.1.take numberOfBytes ++
      [value.1.getD numberOfBytes 0 &&& ((0xff >>> numberOfRestBits) ^^^ 0xff)], value.2)

/-- Source `BitString.is_default`: mask both sides before comparing. -/
def bitStringIsDefault (hasNamedBits : Bool) (default : Option Value) (v : Value) : Bool :=
  match default with
  | none => false
  | some (.bits dbs dn) =>
    match v with
    | .bits bs n =>
      clean_bit_string_value (bs, n) hasNamedBits ==
        clean_bit_string_value (dbs, dn) hasNamedBits
    | _ => false
  | some _ => false

/-- Modelled from the spec: the base-class `is_default` lives in
`codecs/__init__.py`, which is not among the provided sources.  Per §9
defaults are "compared structurally (deep equality …) before the encode skip
decision": structural equality with the declared default when one exists. -/
def baseIsDefault (default : Option Value) (v : Value) : Bool :=
  match default with
  | none => false
  | some d => beqValue v d

def insertSortedInt (x : Int) : List Int → List Int
  | [] => [x]
  | y :: ys => if x ≤ y then x :: y :: ys else y :: insertSortedInt x ys

/-- Python `sorted` on the enumeration's value table keys (`format_values`). -/
def sortInts : List Int → List Int
  | [] => []
  | x :: xs => insertSortedInt x (sortInts xs)

/-- Source `Enumerated` node state after `__init__`: the value-to-name table
and whether the enumeration declares an extension marker. -/
structure EnumeratedT where
  valueToData : List (Int × String)
  hasExtensionMarker : Bool

def enumLookupV : List (Int × String) → Int → Option String
  | [], _ => none
  | (k, s) :: rest, v => if k = v then some s else enumLookupV rest v

/-- Source `Enumerated.decode_content`: decode the content integer, translate
it through the value table; an unknown value decodes to `None` when the
enumeration has an extension marker and raises the error enumerating the
expected values otherwise. -/
def enumDecodeContent (e : EnumeratedT) (data : List Nat) (offset : Nat)
    (length : Option Nat) : Except DecErr (Option String × Nat) :=
  match length with
  | none => .error (.internal "indefinite length" offset [])
  | some L =>
    let endOffset := offset + L
    let value := fromSignedBE (slice data offset endOffset)
    match enumLookupV e.valueToData value with
    | some name => .ok (some name, endOffset)
    | none =>
      if e.hasExtensionMarker then .ok (none, endOffset)
      else .error (.enumErr (sortInts (e.valueToData.map Prod.fst)) value offset [])

/-! ## Primitive-or-constructed decoding (`PrimitiveOrConstructedType`)

The source's `self.segment` is the node itself for `OctetString`/`BitString`,
so the segment recursion is self-recursion; it is bounded here by a fuel
argument (each segment consumes at least two bytes, so `data.length + 1` fuel
is always sufficient — the source relies on the same progress for
termination). -/

def setConstructedBit : List Nat → List Nat
  | [] => []
  | b :: rest => (b ||| 0x20) :: rest

mutual

def pocDecodeF (tag : List Nat) (decodePrimC : List Nat → Nat → Nat → Value)
    (combine : List Value → Value) : Nat → List Nat → Nat → Except DecErr DecRes
  | 0, _, startOffset => .error (.internal "segment recursion fuel exhausted" startOffset [])
  | fuel + 1, data, startOffset =>
    let tagLen := tag.length
    let offset := startOffset + tagLen
    let tagData := slice data startOffset offset
    if tagData = tag then
      match decode_length data offset false with
      | .error e => .error e
      | .ok (some length, offset1) =>
        .ok (.ok (decodePrimC data offset1 length) (offset1 + length))
      | .ok (none, offset1) => .error (.internal "indefinite primitive" offset1 [])
    else if tagData = setConstructedBit tag then
      match decode_length data offset false with
      | .error e => .error e
      | .ok (length, offset1) =>
        match pocSegsF tag decodePrimC combine fuel data offset1
            (length.map fun l => offset1 + l) [] with
        | .error e => .error e
        | .ok (segments, offset2) => .ok (.ok (combine segments) offset2)
    else if tagData.length ≠ tagLen then
      .error (.outOfData tagReadMsg startOffset [])
    else .ok (.mismatch startOffset)

def pocSegsF (tag : List Nat) (decodePrimC : List Nat → Nat → Nat → Value)
    (combine : List Value → Value) :
    Nat → List Nat → Nat → Option Nat → List Value → Except DecErr (List Value × Nat)
  | 0, _, offset, _, _ => .error (.internal "segment recursion fuel exhausted" offset [])
  | fuel + 1, data, offset, endOffset, segments =>
    match is_end_of_data data offset endOffset with
    | .error e => .error e
    | .ok (true, offset1) => .ok (segments.reverse, offset1)
    | .ok (false, _) =>
      match pocDecodeF tag decodePrimC combine fuel data offset with
      | .error e => .error e
      | .ok (.mismatch o) => throwTagError [tag] (some tag.length) data o []
      | .ok (.ok v o) => pocSegsF tag decodePrimC combine fuel data o endOffset (v :: segments)

end

def octetStringDecode (data : List Nat) (offset : Nat) : Except DecErr DecRes :=
  pocDecodeF [4] octetDecodePrim octetCombine (data.length + 1) data offset

def bitStringDecode (data : List Nat) (offset : Nat) : Except DecErr DecRes :=
  pocDecodeF [3] bitStringDecodePrim bitStringCombine (data.length + 1) data offset

/-! ## MembersType (Sequence / Set) -/

/-- One interpreted member as `MembersType` sees it: its name, optional flag,
declared default and the duck-typed operations the source invokes on it. -/
structure MemberI where
  name : String
  optional : Bool
  default : Option Value
  tagLen : Option Nat
  expectedTags : List (List Nat)
  decode : List Nat → Nat → FieldList → Except DecErr DecRes
  encode : Value → Except EncErr (List Nat)
  isDefault : Value → Bool

/-- Source `MembersType.encode_member` (for non-`AnyDefinedBy` members, the
only kind in the embedded fragment): encode a present member unless it equals
its default; a missing member passes when optional or defaulted and is an
encode error otherwise. -/
def encodeMember (typeName : String) (m : MemberI) (fields : FieldList) :
    Except EncErr (List Nat) :=
  match fields.lookup m.name with
  | some v =>
    if m.isDefault v then .ok []
    else
      match m.encode v with
      | .error e => .error (e.addLoc m.name)
      | .ok bs => .ok bs
  | none =>
    if m.optional then .ok []
    else
      match m.default with
      | some _ => .ok []
      | none => .error (.memberNotFound typeName m.name [])

def encodeRootMembers (typeName : String) : List MemberI → FieldList → Except EncErr (List Nat)
  | [], _ => .ok []
  | m :: rest, fields =>
    match encodeMember typeName m fields with
    | .error e => .error e
    | .ok bs =>
      match encodeRootMembers typeName rest fields with
      | .error e => .error e
      | .ok bs2 => .ok (bs ++ bs2)

def encodeGroup (typeName : String) : List MemberI → FieldList → Except EncErr (List Nat)
  | [], _ => .ok []
  | m :: rest, fields =>
    match encodeMember typeName m fields with
    | .error e => .error e
    | .ok bs =>
      match encodeGroup typeName rest fields with
      | .error e => .error e
      | .ok bs2 => .ok (bs ++ bs2)

/-- Source `MembersType.encode_additions`: the whole addition loop sits in one
`try`, so the first addition that raises `EncodeError` silently drops itself
and every later addition, while additions already extended are kept.
An addition that is a single member is the singleton group. -/
def encodeAdditions (typeName : String) : List (List MemberI) → FieldList → List Nat
  | [], _ => []
  | g :: rest, fields =>
    match encodeGroup typeName g fields with
    | .error _ => []
    | .ok bs => bs ++ encodeAdditions typeName rest fields

/-- Source `MembersType.encode_content`. -/
def membersEncodeContent (typeName : String) (roots : List MemberI)
    (additions : Option (List (List MemberI))) (fields : FieldList) :
    Except EncErr (List Nat) :=
  match encodeRootMembers typeName roots fields with
  | .error e => .error e
  | .ok bs =>
    match additions with
    | none => .ok bs
    | some adds =>
      if adds.isEmpty then .ok bs
      else .ok (bs ++ encodeAdditions typeName adds fields)

/-- One pass of the `for member in remaining_members` loop inside
`MembersType.decode_members`: attempts each member at the current offset,
keeping tag-mismatching members (and every member once out of data) for the
next pass, recording decoded values, and re-detecting end of data after every
attempt.  Returns (undecoded members, values, offset, out-of-data flag,
whether any member decoded in this pass). -/
def decodePass (data : List Nat) (endOffset : Option Nat) :
    List MemberI → FieldList → Nat → Bool →
    Except DecErr (List MemberI × FieldList × Nat × Bool × Bool)
  | [], values, offset, outOfData => .ok ([], values, offset, outOfData, false)
  | m :: rest, values, offset, outOfData =>
    if outOfData then
      match decodePass data endOffset rest values offset outOfData with
      | .error e => .error e
      | .ok (undecoded, v1, o1, out1, s1) => .ok (m :: undecoded, v1, o1, out1, s1)
    else
      match m.decode data offset values with
      | .error e => .error (e.addLoc m.name)
      | .ok (.mismatch o) =>
        match is_end_of_data data o endOffset with
        | .error e => .error e
        | .ok (out2, o2) =>
          match decodePass data endOffset rest values o2 out2 with
          | .error e => .error e
          | .ok (undecoded, v1, o1, out1, s1) => .ok (m :: undecoded, v1, o1, out1, s1)
      | .ok (.ok v o) =>
        match is_end_of_data data o endOffset with
        | .error e => .error e
        | .ok (out2, o2) =>
          match decodePass data endOffset rest (values.insert m.name v) o2 out2 with
          | .error e => .error e
          | .ok (undecoded, v1, o1, out1, _) => .ok (undecoded, v1, o1, out1, true)

/-- The outer `while True` loop of `MembersType.decode_members`: re-detect end
of data, run one pass, stop when out of data or when a full pass decoded
nothing.  The source's loop terminates because every continued iteration has
decoded at least one member; fuel `members.length + 1` therefore always
suffices. -/
def decodeMembersLoop (data : List Nat) (endOffset : Option Nat) :
    Nat → List MemberI → FieldList → Nat →
    Except DecErr (List MemberI × FieldList × Nat × Bool)
  | 0, _, _, offset => .error (.internal "member loop fuel exhausted" offset [])
  | fuel + 1, remaining, values, offset =>
    match is_end_of_data data offset endOffset with
    | .error e => .error e
    | .ok (outOfData, offset1) =>
      match decodePass data endOffset remaining values offset1 outOfData with
      | .error e => .error e
      | .ok (undecoded, values1, offset2, out1, success) =>
        if out1 then .ok (undecoded, values1, offset2, true)
        else if success then decodeMembersLoop data endOffset fuel undecoded values1 offset2
        else .ok (undecoded, values1, offset2, false)

/-- The post-loop handling of `MembersType.decode_members`: members that never
decoded are skipped when optional, get their default installed when defaulted,
stop the scan when `ignore_missing` (the addition pass), and otherwise raise —
`MissingMandatoryFieldError` when the input was exhausted, a
`DecodeTagError` naming the member's expected tag otherwise. -/
def handleRemaining (data : List Nat) :
    List MemberI → FieldList → Nat → Bool → Bool → Except DecErr FieldList
  | [], values, _, _, _ => .ok values
  | m :: rest, values, offset, outOfData, ignoreMissing =>
    if m.optional then handleRemaining data rest values offset outOfData ignoreMissing
    else
      match m.default with
      | some d => handleRemaining data rest (values.insert m.name d) offset outOfData ignoreMissing
      | none =>
        if ignoreMissing then .ok values
        else if outOfData then .error (.missingMandatory m.name offset [m.name])
        else throwTagError m.expectedTags m.tagLen data offset [m.name]

/-- Source `MembersType.decode_members`. -/
def decodeMembers (data : List Nat) (endOffset : Option Nat) (members : List MemberI)
    (values : FieldList) (offset : Nat) (ignoreMissing : Bool) :
    Except DecErr (FieldList × Nat × Bool) :=
  match decodeMembersLoop data endOffset (members.length + 1) members values offset with
  | .error e => .error e
  | .ok (remaining, values1, offset1, outOfData) =>
    match handleRemaining data remaining values1 offset1 outOfData ignoreMissing with
    | .error e => .error e
    | .ok values2 => .ok (values2, offset1, outOfData)

def noEOCMembersMsg : String :=
  "Could not find end-of-contents tag for indefinite length field."

/-- Source `MembersType.decode_content`: the root pass, then the addition pass
over the flattened additions with `ignore_missing=True` (run only when the
node has a non-empty addition list — Python truthiness), then the
end-of-contents check for indefinite fields; trailing bytes within a definite
length are permitted and the declared end offset is returned. -/
def membersDecodeContent (roots : List MemberI) (additions : Option (List (List MemberI)))
    (data : List Nat) (offset : Nat) (length : Option Nat) :
    Except DecErr (FieldList × Nat) :=
  let endOffset := length.map fun l => offset + l
  match decodeMembers data endOffset roots .nil offset false with
  | .error e => .error e
  | .ok (values, offset1, out1) =>
    match
      (match additions with
       | none => Except.ok (values, offset1, out1)
       | some adds =>
         if adds.isEmpty then .ok (values, offset1, out1)
         else decodeMembers data endOffset adds.flatten values offset1 true) with
    | .error e => .error e
    | .ok (values2, offset2, out2) =>
      if out2 then .ok (values2, offset2)
      else
        match endOffset with
        | none => .error (.noEOC noEOCMembersMsg offset2 [])
        | some e => .ok (values2, e)

/-- The natural-language characterization of default installation used by the
post-loop claim: skip optional members, install the default of defaulted
members. -/
def installDefaults : List MemberI → FieldList → FieldList
  | [], values => values
  | m :: rest, values =>
    if m.optional then installDefaults rest values
    else
      match m.default with
      | some d => installDefaults rest (values.insert m.name d)
      | none => values

/-- One interpreted BIT STRING member (the compiler's
`BitString(name, has_named_bits)` carrying a declared default), with the
masked default comparison of `BitString.is_default`. -/
def bitStringMemberI (name : String) (optionalFlag : Bool) (default : Option Value)
    (hasNamedBits : Bool) : MemberI :=
  { name := name, optional := optionalFlag, default := default,
    tagLen := some 1, expectedTags := [[3]],
    decode := fun data offset _ => bitStringDecode data offset,
    encode := fun v => standardEncode [3] bitStringEncodeContent v,
    isDefault := fun v => bitStringIsDefault hasNamedBits default v }

/-! ## Choice -/

/-- One interpreted CHOICE member: its name, the tag byte strings it registers
in the parent's dispatch table (`get_member_tags`), and its operations. -/
structure ChoiceMemberI where
  name : String
  tags : List (List Nat)
  decode : List Nat → Nat → FieldList → Except DecErr DecRes
  encode : Value → Except EncErr (List Nat)

/-- Source `Choice.add_tags`: every member registers each of its tags; being a
Python dict, a later registration of the same tag overwrites an earlier one. -/
def choiceTagToMember (members : List ChoiceMemberI) : List (List Nat × ChoiceMemberI) :=
  members.flatMap fun m => m.tags.map fun t => (t, m)

/-- Python dict lookup on an insertion-ordered association list where later
insertions overwrite earlier ones. -/
def lookupLastTag (table : List (List Nat × ChoiceMemberI)) (tag : List Nat) :
    Option ChoiceMemberI :=
  table.foldl (fun acc p => if p.1 = tag then some p.2 else acc) none

/-- Source `Choice.name_to_member` dict lookup. -/
def lookupLastName (members : List ChoiceMemberI) (n : String) : Option ChoiceMemberI :=
  members.foldl (fun acc m => if m.name = n then some m else acc) none

/-- Source `Choice.decode`: read the tag at the offset and dispatch through
the tag table; on a miss, skip the whole unknown element and decode to the
`(None, None)` placeholder when the Choice has an extension marker, and
return `TAG_MISMATCH` to the caller otherwise. -/
def choiceDecode (members : List ChoiceMemberI) (hasExtensionMarker : Bool)
    (data : List Nat) (offset : Nat) : Except DecErr DecRes :=
  match read_tag data offset with
  | .error e => .error e
  | .ok tag =>
    match lookupLastTag (choiceTagToMember members) tag with
    | some m =>
      match m.decode data offset .nil with
      | .error e => .error (e.addLoc m.name)
      | .ok (.mismatch o) => .ok (.ok (.choiceV m.name .mismatchV) o)
      | .ok (.ok v o) => .ok (.ok (.choiceV m.name v) o)
    | none =>
      if hasExtensionMarker then
        match skip_tag_length_contents data offset with
        | .error e => .error e
        | .ok o => .ok (.ok .choiceEmpty o)
      else .ok (.mismatch offset)

/-- Source `Choice.encode`: look the member up by the supplied `(name, value)`
pair's name and delegate. -/
def choiceEncode (members : List ChoiceMemberI) (v : Value) : Except EncErr (List Nat) :=
  match v with
  | .choiceV n inner =>
    match lookupLastName members n with
    | none => .error (.badChoice (members.map fun m => m.name) n [])
    | some m =>
      match m.encode inner with
      | .error e => .error (e.addLoc m.name)
      | .ok bs => .ok bs
  | _ => .error (.typeMismatch "CHOICE" [])

/-! ## The compiled type-node fragment

The embedded fragment of the compiled tree: `Boolean`, `Integer`, `Null`,
`OctetString` (primitive and constructed), `Sequence` over root members (the
additions-free case) and `Choice` (with or without extension marker).
`MemberList` / `ChoiceList` are the member lists, kept as dedicated mutual
inductives. -/

mutual

inductive TypeNode where
  | boolean
  | integer
  | nullT
  | octetString
  | sequence (rootMembers : MemberList)
  | choice (members : ChoiceList) (hasExtensionMarker : Bool)

inductive MemberList where
  | nil
  | cons (name : String) (optionalFlag : Bool) (default : Option Value)
      (type : TypeNode) (rest : MemberList)

inductive ChoiceList where
  | nil
  | cons (name : String) (type : TypeNode) (rest : ChoiceList)

end

mutual

/-- Source `Choice.get_member_tags`: a nested Choice hoists all its members'
tags, a `PrimitiveOrConstructedType` registers both its primitive and its
constructed tag, any other node registers its single tag. -/
def TypeNode.tagSet : TypeNode → List (List Nat)
  | .boolean => [[1]]
  | .integer => [[2]]
  | .nullT => [[5]]
  | .octetString => [[4], [36]]
  | .sequence _ => [[48]]
  | .choice ms _ => choiceTags ms

def choiceTags : ChoiceList → List (List Nat)
  | .nil => []
  | .cons _ t rest => t.tagSet ++ choiceTags rest

end

/-- Source `Type.format_tag` / `Choice.format_tag` (the expected-tag list a
`DecodeTagError` reports): the node's own encoded tag, or for a Choice every
key of its dispatch table. -/
def TypeNode.fmtTags : TypeNode → List (List Nat)
  | .boolean => [[1]]
  | .integer => [[2]]
  | .nullT => [[5]]
  | .octetString => [[4]]
  | .sequence _ => [[48]]
  | .choice ms _ => choiceTags ms

/-- Source `tag_len` attribute (`None` for the tag-less Choice). -/
def TypeNode.tagLenI : TypeNode → Option Nat
  | .choice _ _ => none
  | _ => some 1

def TypeNode.typeLabel : TypeNode → String
  | .boolean => "BOOLEAN"
  | .integer => "INTEGER"
  | .nullT => "NULL"
  | .octetString => "OCTET STRING"
  | .sequence _ => "SEQUENCE"
  | .choice _ _ => "CHOICE"

/-- Source `is_default` dispatch: `Null` overrides it to always-False, the
other fragment nodes inherit the base structural comparison. -/
def TypeNode.isDefaultI : TypeNode → Option Value → Value → Bool
  | .nullT, _, _ => false
  | _, dflt, v => baseIsDefault dflt v

mutual

/-- Node-level decode dispatch (`Type.decode` of each embedded class). -/
def TypeNode.decodeF : TypeNode → List Nat → Nat → FieldList → Except DecErr DecRes
  | .boolean, data, offset, _ => standardDecode [1] false boolDecodeContent data offset
  | .integer, data, offset, _ => standardDecode [2] false intDecodeContent data offset
  | .nullT, data, offset, _ => standardDecode [5] false nullDecodeContent data offset
  | .octetString, data, offset, _ => octetStringDecode data offset
  | .sequence roots, data, offset, _ =>
    standardDecode [48] true
      (fun d o len =>
        match membersDecodeContent (interpMembers roots) none d o len with
        | .error e => .error e
        | .ok (fields, e) => .ok (.seq fields, e))
      data offset
  | .choice ms ext, data, offset, _ => choiceDecode (interpChoiceMembers ms) ext data offset

/-- Node-level encode dispatch (`Type.encode` of each embedded class). -/
def TypeNode.encodeF : TypeNode → Value → Except EncErr (List Nat)
  | .boolean, v => standardEncode [1] boolEncodeContent v
  | .integer, v => standardEncode [2] intEncodeContent v
  | .nullT, v => nullEncode v
  | .octetString, v => standardEncode [4] octetEncodeContent v
  | .sequence roots, v =>
    standardEncode [48]
      (fun val =>
        match val with
        | .seq fields => membersEncodeContent "Sequence" (interpMembers roots) none fields
        | _ => .error (.typeMismatch "SEQUENCE" []))
      v
  | .choice ms _, v => choiceEncode (interpChoiceMembers ms) v

def interpMembers : MemberList → List MemberI
  | .nil => []
  | .cons n opt dflt t rest =>
    { name := n, optional := opt, default := dflt,
      tagLen := t.tagLenI, expectedTags := t.fmtTags,
      decode := fun data offset values => t.decodeF data offset values,
      encode := fun v => t.encodeF v,
      isDefault := fun v => t.isDefaultI dflt v } :: interpMembers rest

def interpChoiceMembers : ChoiceList → List ChoiceMemberI
  | .nil => []
  | .cons n t rest =>
    { name := n, tags := t.tagSet,
      decode := fun data offset values => t.decodeF data offset values,
      encode := fun v => t.encodeF v } :: interpChoiceMembers rest

end

/-- The interpreted record `interpMembers` builds for one member. -/
def interpMember (n : String) (opt : Bool) (dflt : Option Value) (t : TypeNode) : MemberI :=
  { name := n, optional := opt, default := dflt,
    tagLen := t.tagLenI, expectedTags := t.fmtTags,
    decode := fun data offset values => t.decodeF data offset values,
    encode := fun v => t.encodeF v,
    isDefault := fun v => t.isDefaultI dflt v }

/-- The interpreted record `interpChoiceMembers` builds for one member. -/
def interpChoiceMember (n : String) (t : TypeNode) : ChoiceMemberI :=
  { name := n, tags := t.tagSet,
    decode := fun data offset values => t.decodeF data offset values,
    encode := fun v => t.encodeF v }

/-! ## CompiledType facade -/

/-- Source `CompiledType.encode`. -/
def compiledEncode (t : TypeNode) (v : Value) : Except EncErr (List Nat) :=
  match t.encodeF v with
  | .error e => .error (e.addLoc t.typeLabel)
  | .ok bs => .ok bs

/-- Source `CompiledType.decode_with_length`: decode from offset 0, turn a
top-level `TAG_MISMATCH` into a `DecodeTagError`, add the type's location to
any failure, and return the decoded value with the consumed length. -/
def compiledDecodeWithLength (t : TypeNode) (data : List Nat) :
    Except DecErr (Value × Nat) :=
  match
    ((match t.decodeF data 0 .nil with
      | .error e => .error e
      | .ok (.mismatch o) => throwTagError t.fmtTags t.tagLenI data o [t.typeLabel]
      | .ok (.ok v o) => .ok (v, o)) : Except DecErr (Value × Nat)) with
  | .error e => .error (e.addLoc t.typeLabel)
  | .ok r => .ok r

/-- Source `CompiledType.decode`. -/
def compiledDecode (t : TypeNode) (data : List Nat) : Except DecErr Value :=
  match compiledDecodeWithLength t data with
  | .error e => .error e
  | .ok (v, _) => .ok v

/-! ## Schema well-formedness and canonical values

`wfB` captures the schema-side assumptions BER itself imposes on the encoded
fragment (members are distinguishable: pairwise-disjoint candidate tag sets,
distinct names).  `validV` singles out the canonical values of a node: well
typed, members given in declared order, present members not equal to their
defaults, absent members optional and safe to probe (their decode returns
`TAG_MISMATCH` rather than consuming foreign data — which rules out an absent
extensible Choice, whose unknown-tag handler swallows the next element). -/

def nodupB : List String → Bool
  | [] => true
  | x :: xs => !(decide (x ∈ xs)) && nodupB xs

def disjointTagsB (a b : List (List Nat)) : Bool :=
  a.all fun t => !(decide (t ∈ b))

def pairwiseDisjointB : List (List (List Nat)) → Bool
  | [] => true
  | x :: xs => (xs.all fun y => disjointTagsB x y) && pairwiseDisjointB xs

def memberNames : MemberList → List String
  | .nil => []
  | .cons n _ _ _ rest => n :: memberNames rest

def memberTagSets : MemberList → List (List (List Nat))
  | .nil => []
  | .cons _ _ _ t rest => t.tagSet :: memberTagSets rest

def memberTagsUnion : MemberList → List (List Nat)
  | .nil => []
  | .cons _ _ _ t rest => t.tagSet ++ memberTagsUnion rest

/-- Every optional member's candidate tag set is disjoint from the tags of all
members after it — the distinguishability BER requires of runs of
optional members so that an omitted member's probe cannot capture a later
member's element. -/
def seqTagsOkB : MemberList → Bool
  | .nil => true
  | .cons _ opt _ t rest =>
    (!opt || disjointTagsB t.tagSet (memberTagsUnion rest)) && seqTagsOkB rest

def choiceNames : ChoiceList → List String
  | .nil => []
  | .cons n _ rest => n :: choiceNames rest

def choiceTagSets : ChoiceList → List (List (List Nat))
  | .nil => []
  | .cons _ t rest => t.tagSet :: choiceTagSets rest

mutual

def TypeNode.wfB : TypeNode → Bool
  | .boolean => true
  | .integer => true
  | .nullT => true
  | .octetString => true
  | .sequence roots =>
    wfMembersB roots && nodupB (memberNames roots) && seqTagsOkB roots
  | .choice ms _ =>
    wfChoiceB ms && nodupB (choiceNames ms) && pairwiseDisjointB (choiceTagSets ms)

def wfMembersB : MemberList → Bool
  | .nil => true
  | .cons _ _ _ t rest => t.wfB && wfMembersB rest

def wfChoiceB : ChoiceList → Bool
  | .nil => true
  | .cons _ t rest => t.wfB && wfChoiceB rest

end

/-- Whether probing this node at foreign data is guaranteed to come back as
`TAG_MISMATCH`: true for every fragment node except a Choice with an extension
marker (whose decode consumes the foreign element instead). -/
def TypeNode.probeSafe : TypeNode → Bool
  | .choice _ ext => !ext
  | _ => true

def choiceHasName : ChoiceList → String → Bool
  | .nil, _ => false
  | .cons mn _ rest, n => (mn == n) || choiceHasName rest n

mutual

def validV : TypeNode → Value → Bool
  | .boolean, .bool _ => true
  | .integer, .int _ => true
  | .nullT, .null => true
  | .octetString, .bytes _ => true
  | .sequence roots, .seq fields => validSeqB roots fields
  | .choice ms _, .choiceV n v => validChoiceB ms n v
  | _, _ => false

def validSeqB : MemberList → FieldList → Bool
  | .nil, fields => fields.isEmpty
  | .cons n opt dflt t rest, .cons fn fv ftail =>
    if fn = n then validV t fv && !(t.isDefaultI dflt fv) && validSeqB rest ftail
    else opt && t.probeSafe && validSeqB rest (.cons fn fv ftail)
  | .cons _ opt _ t rest, .nil => opt && t.probeSafe && validSeqB rest .nil

def validChoiceB : ChoiceList → String → Value → Bool
  | .nil, _, _ => false
  | .cons mn t rest, n, v =>
    if choiceHasName rest n then validChoiceB rest n v
    else if mn = n then validV t v
    else false

end

/-- The round-trip property of one compiled node: decoding an embedded copy
of the node's encoding of a canonical value recovers exactly that value and
consumes exactly the encoding. -/
def RoundTrips (t : TypeNode) : Prop :=
  ∀ (v : Value) (bs data : List Nat) (off : Nat) (values : FieldList),
    t.wfB = true → validV t v = true → t.encodeF v = .ok bs →
    bs.length < 256 ^ 127 →
    slice data off (off + bs.length) = bs →
    off + bs.length ≤ data.length →
    t.decodeF data off values = .ok (.ok v (off + bs.length))

/-- Two's-complement representability of `n` in `L` bytes (the spec's "the
value round-trips including its sign bit"). -/
def fitsSigned (n : Int) (L : Nat) : Prop :=
  -(2 ^ (8 * L - 1) : Nat) ≤ n ∧ n < (2 ^ (8 * L - 1) : Nat)

/-- Layout of an in-order sequence of member encodings inside `data` ending
exactly at `endOffset`: each member is either present (its decode succeeds at
the current offset, consuming at least one byte) or absent (optional, and
probing it anywhere short of `endOffset` comes back as `TAG_MISMATCH` at the
same offset). -/
inductive MLayout (data : List Nat) (endOffset : Nat) :
    List MemberI → FieldList → Nat → Prop
  | nil : ∀ offset, offset = endOffset → MLayout data endOffset [] .nil offset
  | present : ∀ (m : MemberI) ms v fields offset offset2,
      (∀ values, m.decode data offset values = .ok (.ok v offset2)) →
      offset < offset2 → offset2 ≤ endOffset →
      MLayout data endOffset ms fields offset2 →
      MLayout data endOffset (m :: ms) (.cons m.name v fields) offset
  | absent : ∀ (m : MemberI) ms fields offset,
      m.optional = true →
      (∀ values, offset < endOffset → m.decode data offset values = .ok (.mismatch offset)) →
      MLayout data endOffset ms fields offset →
      MLayout data endOffset (m :: ms) fields offset

/-- A schema exercising the round-trip failure: an optional extensible CHOICE
member followed by a mandatory INTEGER member. -/
def cexNode : TypeNode :=
  .sequence (.cons "a" true none (.choice (.cons "x" .boolean .nil) true)
    (.cons "b" false none .integer .nil))

/-- A value for `cexNode` that omits the optional member `a`. -/
def cexValue : Value :=
  .seq (.cons "b" (.int 5) .nil)

/-- A sample schema satisfying the distinguishability conditions: an optional
OCTET STRING, a mandatory extension-free CHOICE and a defaulted INTEGER. -/
def sampleSeqNode : TypeNode :=
  .sequence (.cons "a" true none .octetString
    (.cons "b" false none (.choice (.cons "x" .boolean .nil) false)
      (.cons "c" false (some (.int 7)) .integer .nil)))

/-- A canonical value for `sampleSeqNode`: `a` omitted, `b` a Boolean choice,
`c` present and different from its default. -/
def sampleSeqValue : Value :=
  .seq (.cons "b" (.choiceV "x" (.bool true)) (.cons "c" (.int 5) .nil))

/-! ## Byte-buffer lemmas -/

theorem slice_getElem? (d : List Nat) (a b i : Nat) :
    (slice d a b)[i]? = if i < b - a then d[a + i]? else none := by
  simp [slice, List.getElem?_take, List.getElem?_drop]

theorem slice_length_of_le {d : List Nat} {a L : Nat} (h : a + L ≤ d.length) :
    (slice d a (a + L)).length = L := by
  simp only [slice, List.length_take, List.length_drop]
  omega

theorem getElem?_of_slice {d bs : List Nat} {a L : Nat} (h : slice d a (a + L) = bs)
    {i : Nat} (hi : i < L) : d[a + i]? = bs[i]? := by
  rw [← h, slice_getElem?, Nat.add_sub_cancel_left, if_pos hi]

theorem slice_take {d bs : List Nat} {a L : Nat} (h : slice d a (a + L) = bs)
    {m : Nat} (hm : m ≤ L) : slice d a (a + m) = bs.take m := by
  rw [← h]
  simp only [slice, Nat.add_sub_cancel_left, List.take_take]
  rw [Nat.min_eq_left hm]

theorem slice_drop {d bs : List Nat} {a L : Nat} (h : slice d a (a + L) = bs)
    {m : Nat} (hm : m ≤ L) : slice d (a + m) (a + L) = bs.drop m := by
  rw [← h]
  simp only [slice, Nat.add_sub_cancel_left, List.drop_take, List.drop_drop]
  have e1 : a + L - (a + m) = L - m := by omega
  rw [e1]

theorem slice_one {d : List Nat} {off b : Nat} (h : d[off]? = some b) :
    slice d off (off + 1) = [b] := by
  apply List.ext_getElem?
  intro i
  rw [slice_getElem?]
  match i with
  | 0 => simpa using h
  | i + 1 => simp

theorem getElem?_some_of_lt {d : List Nat} {i : Nat} (h : i < d.length) :
    d[i]? = some d[i] :=
  List.getElem?_eq_getElem h

theorem lt_length_of_getElem? {d : List Nat} {i b : Nat} (h : d[i]? = some b) :
    i < d.length := by
  by_contra hc
  rw [List.getElem?_eq_none (by omega)] at h
  exact Option.noConfusion h

/-! ## Bitwise byte lemmas -/

theorem and128_eq_zero {n : Nat} (h : n < 128) : n &&& 128 = 0 := by
  have hb : n.testBit 7 = false := Nat.testBit_lt_two_pow (by norm_num; omega)
  have h2 := Nat.and_two_pow n 7
  norm_num at h2
  rw [hb] at h2
  simpa using h2

theorem and128_ne_zero {b : Nat} (h1 : 128 ≤ b) (h2 : b < 256) : b &&& 128 ≠ 0 := by
  have hb : b.testBit 7 = true := by
    rw [Nat.testBit_to_div_mod]
    have hd : b / 2 ^ 7 = 1 := by norm_num; omega
    rw [hd]
    norm_num
  have h3 := Nat.and_two_pow b 7
  norm_num at h3
  rw [hb] at h3
  simp at h3
  omega

theorem and127_eq_mod (n : Nat) : n &&& 127 = n % 128 := by
  have h := Nat.and_pow_two_sub_one_eq_mod n 7
  norm_num at h
  exact h

theorem or128_eq {k : Nat} (h : k < 128) : 128 ||| k = 128 + k := by
  have h2 := @Nat.mul_add_lt_is_or 7 k (by norm_num; omega) 1
  norm_num at h2
  exact h2.symm

/-! ## Length codec lemmas -/

theorem lengthBytesLE_zero : lengthBytesLE 0 = [] := by
  simp [lengthBytesLE]

theorem lengthBytesLE_pos {n : Nat} (h : n ≠ 0) :
    lengthBytesLE n = (n % 256) :: lengthBytesLE (n / 256) := by
  rw [lengthBytesLE]
  simp [h]

theorem beVal_append (xs : List Nat) (b : Nat) :
    beVal (xs ++ [b]) = 256 * beVal xs + b := by
  simp [beVal, List.foldl_append]

theorem beVal_rev_lengthBytesLE (n : Nat) : beVal (lengthBytesLE n).reverse = n := by
  induction n using Nat.strong_induction_on with
  | _ n ih =>
    by_cases h : n = 0
    · subst h
      simp [lengthBytesLE_zero, beVal]
    · rw [lengthBytesLE_pos h]
      simp only [List.reverse_cons]
      rw [beVal_append, ih (n / 256) (Nat.div_lt_self (by omega) (by omega))]
      omega

theorem lengthBytesLE_length_le {n d : Nat} (h : n < 256 ^ d) :
    (lengthBytesLE n).length ≤ d := by
  induction d generalizing n with
  | zero =>
    simp at h
    subst h
    simp [lengthBytesLE_zero]
  | succ d ih =>
    by_cases h0 : n = 0
    · simp [h0, lengthBytesLE_zero]
    · rw [lengthBytesLE_pos h0]
      simp only [List.length_cons]
      have hlt : n / 256 < 256 ^ d := by
        rw [Nat.div_lt_iff_lt_mul (by omega)]
        calc n < 256 ^ (d + 1) := h
        _ = 256 ^ d * 256 := by ring
      have := ih hlt
      omega

theorem encode_length_definite_short {n : Nat} (h : n ≤ 127) :
    encode_length_definite n = [n] := by
  simp [encode_length_definite, h]

theorem encode_length_definite_long {n : Nat} (h : ¬n ≤ 127) :
    encode_length_definite n =
      (128 ||| (lengthBytesLE n).length) :: (lengthBytesLE n).reverse := by
  simp [encode_length_definite, h]

/-- Unfolding of `decode_length` once the addressed byte is known. -/
theorem decode_length_some (d : List Nat) (off b : Nat) (e : Bool)
    (hb : d[off]? = some b) :
    decode_length d off e =
      (if b &&& 0x80 ≠ 0 then
        if b = 128 then
          if e then .error (.decodeErr definiteLenMsg (off + 1 - 1) [])
          else .ok (none, off + 1)
        else
          if (slice d (off + 1) ((b &&& 0x7f) + (off + 1))).length ≠ b &&& 0x7f then
            .error (.outOfData (longLenMsg (b &&& 0x7f) (off + 1)
              (slice d (off + 1) ((b &&& 0x7f) + (off + 1))).length) (off + 1) [])
          else if (off + 1) + (b &&& 0x7f) + beVal (slice d (off + 1) ((b &&& 0x7f) + (off + 1)))
              > d.length then
            .error (.missingData
              (missingDataMsg (beVal (slice d (off + 1) ((b &&& 0x7f) + (off + 1))))
                (d.length - ((off + 1) + (b &&& 0x7f)))) ((off + 1) + (b &&& 0x7f))
              (beVal (slice d (off + 1) ((b &&& 0x7f) + (off + 1)))) [])
          else .ok (some (beVal (slice d (off + 1) ((b &&& 0x7f) + (off + 1)))),
            (off + 1) + (b &&& 0x7f))
      else
        if off + 1 + b > d.length then
          .error (.missingData (missingDataMsg b (d.length - (off + 1))) (off + 1) b [])
        else .ok (some b, off + 1)) := by
  unfold decode_length
  rw [hb]

/-- Decoding the length bytes `encode_length_definite n` produces (with the
declared content available) recovers `n` and lands just past the length
bytes.  The bound `n < 256 ^ 127` keeps the length-of-length byte within its
7 bits (the source has the same implicit limit). -/
theorem decode_length_encoded {n : Nat} {d : List Nat} {off : Nat} (e : Bool)
    (hk : n < 256 ^ 127)
    (hsl : slice d off (off + (encode_length_definite n).length) = encode_length_definite n)
    (havail : off + (encode_length_definite n).length + n ≤ d.length) :
    decode_length d off e = .ok (some n, off + (encode_length_definite n).length) := by
  by_cases hn : n ≤ 127
  · rw [encode_length_definite_short hn] at hsl havail ⊢
    have hb : d[off]? = some n := by
      have h0 := getElem?_of_slice hsl (show (0:Nat) < 1 by omega)
      simpa using h0
    rw [decode_length_some d off n e hb]
    have hand : n &&& 128 = 0 := and128_eq_zero (by omega)
    simp only [List.length_cons, List.length_nil] at havail ⊢
    rw [if_neg (by omega)]
    rw [if_neg (by omega)]
  · rw [encode_length_definite_long hn] at hsl havail ⊢
    set D := lengthBytesLE n with hD
    set k := D.length with hk2
    have hkpos : 1 ≤ k := by
      rw [hk2, hD, lengthBytesLE_pos (show n ≠ 0 by omega)]
      simp
    have hk127 : k ≤ 127 := by
      rw [hk2, hD]
      exact lengthBytesLE_length_le hk
    have hor : 128 ||| k = 128 + k := or128_eq (by omega)
    have hlen : ((128 ||| k) :: D.reverse).length = k + 1 := by simp
    rw [hlen] at hsl havail
    have hb : d[off]? = some (128 ||| k) := by
      have h0 := getElem?_of_slice hsl (show (0:Nat) < k + 1 by omega)
      simpa using h0
    rw [decode_length_some d off (128 ||| k) e hb, hor]
    have hand : (128 + k) &&& 128 ≠ 0 := and128_ne_zero (by omega) (by omega)
    rw [if_pos hand, if_neg (by omega)]
    have hand7 : (128 + k) &&& 127 = k := by
      rw [and127_eq_mod]
      omega
    rw [hand7]
    have hrest : slice d (off + 1) (off + (k + 1)) = D.reverse := by
      have := slice_drop hsl (show (1:Nat) ≤ k + 1 by omega)
      simpa using this
    have harg : k + (off + 1) = off + (k + 1) := by omega
    rw [harg, hrest]
    have hrlen : D.reverse.length = k := by simp
    rw [hrlen]
    rw [if_neg (by omega)]
    have hval : beVal D.reverse = n := by
      rw [hD]
      exact beVal_rev_lengthBytesLE n
    rw [hval]
    rw [if_neg (by omega)]
    have : off + 1 + k = off + (k + 1) := by omega
    rw [this]
    simp only [List.length_cons, hrlen]

/-! ## Signed-integer lemmas -/

theorem bitLengthAux_le_iff {fuel n k : Nat} (hf : n ≤ fuel) :
    bitLengthAux fuel n ≤ k ↔ n < 2 ^ k := by
  induction fuel generalizing n k with
  | zero =>
    have h0 : n = 0 := by omega
    subst h0
    simp [bitLengthAux, Nat.pos_pow_of_pos]
  | succ fuel ih =>
    by_cases h0 : n = 0
    · subst h0
      simp [bitLengthAux, Nat.pos_pow_of_pos]
    · simp only [bitLengthAux, h0, if_neg, ite_false]
      cases k with
      | zero =>
        constructor
        · intro hle
          omega
        · intro hlt
          simp at hlt
          omega
      | succ k =>
        have hrec := @ih (n / 2) k (by omega)
        have hd := Nat.div_add_mod n 2
        have hp : (2:Nat) ^ (k + 1) = 2 * 2 ^ k := by ring
        constructor
        · intro hle
          have := hrec.mp (by omega)
          omega
        · intro hlt
          have := hrec.mpr (by omega)
          omega

theorem bitLength_le_iff {n k : Nat} : bitLength n ≤ k ↔ n < 2 ^ k :=
  bitLengthAux_le_iff le_rfl

theorem lt_two_pow_bitLength (n : Nat) : n < 2 ^ bitLength n :=
  bitLength_le_iff.mp le_rfl

theorem length_natBEBytes (v L : Nat) : (natBEBytes v L).length = L := by
  induction L generalizing v with
  | zero => simp [natBEBytes]
  | succ L ih => simp [natBEBytes, ih]

theorem beVal_natBEBytes (v L : Nat) : beVal (natBEBytes v L) = v % 256 ^ L := by
  induction L generalizing v with
  | zero =>
    simp [natBEBytes, beVal]
    omega
  | succ L ih =>
    show beVal (natBEBytes (v / 256) L ++ [v % 256]) = _
    rw [beVal_append, ih, pow_succ, mul_comm (256 ^ L) 256, Nat.mod_mul]
    ring

theorem length_toSignedBE (n : Int) (L : Nat) : (toSignedBE n L).length = L :=
  length_natBEBytes _ _

theorem length_encode_signed_integer (n : Int) :
    (encode_signed_integer n).length = signedByteLength n :=
  length_toSignedBE _ _

theorem fromSignedBE_natBE {u L : Nat} (hL : 1 ≤ L) (hu : u < 2 ^ (8 * L)) :
    fromSignedBE (natBEBytes u L) =
      if 2 ^ (8 * L - 1) ≤ u then (u : Int) - ((2 ^ (8 * L) : Nat) : Int) else (u : Int) := by
  unfold fromSignedBE
  rw [length_natBEBytes, beVal_natBEBytes]
  have h256 : (256:Nat) ^ L = 2 ^ (8 * L) := by
    rw [show (256:Nat) = 2 ^ 8 by norm_num, ← pow_mul]
  rw [h256, Nat.mod_eq_of_lt hu, if_neg (show ¬ L = 0 by omega)]

theorem fromSigned_toSigned {n : Int} {L : Nat} (hL : 1 ≤ L) (hfit : fitsSigned n L) :
    fromSignedBE (toSignedBE n L) = n := by
  obtain ⟨hfit1, hfit2⟩ := hfit
  have hMH : (2:Nat) ^ (8 * L) = 2 * 2 ^ (8 * L - 1) := by
    have h1 : 8 * L = (8 * L - 1) + 1 := by omega
    calc (2:Nat) ^ (8 * L) = 2 ^ ((8 * L - 1) + 1) := by rw [← h1]
    _ = 2 * 2 ^ (8 * L - 1) := by rw [pow_succ]; ring
  have hcast : ((2 ^ (8 * L) : Nat) : Int)
      = ((2 ^ (8 * L - 1) : Nat) : Int) + ((2 ^ (8 * L - 1) : Nat) : Int) := by
    rw [hMH, Nat.cast_mul]
    omega
  have hApos : (0:Nat) < 2 ^ (8 * L - 1) := Nat.pos_pow_of_pos _ (by omega)
  have hMpos : (0:Int) < ((2 ^ (8 * L) : Nat) : Int) := by omega
  have hmod0 : 0 ≤ n % ((2 ^ (8 * L) : Nat) : Int) := Int.emod_nonneg n (by omega)
  have hmod1 : n % ((2 ^ (8 * L) : Nat) : Int) < ((2 ^ (8 * L) : Nat) : Int) :=
    Int.emod_lt_of_pos n hMpos
  unfold toSignedBE
  have hu : (n % ((2 ^ (8 * L) : Nat) : Int)).toNat < 2 ^ (8 * L) := by omega
  rw [fromSignedBE_natBE hL hu]
  by_cases hneg : n < 0
  · have hself : (n + ((2 ^ (8 * L) : Nat) : Int)) % ((2 ^ (8 * L) : Nat) : Int)
        = n % ((2 ^ (8 * L) : Nat) : Int) := by
      have h0 := @Int.add_mul_emod_self_left n ((2 ^ (8 * L) : Nat) : Int) 1
      rw [mul_one] at h0
      exact h0
    have hnM : n % ((2 ^ (8 * L) : Nat) : Int) = n + ((2 ^ (8 * L) : Nat) : Int) := by
      rw [← hself]
      exact Int.emod_eq_of_lt (by omega) (by omega)
    rw [if_pos (by omega)]
    omega
  · have hnM : n % ((2 ^ (8 * L) : Nat) : Int) = n :=
      Int.emod_eq_of_lt (by omega) (by omega)
    rw [if_neg (by omega)]
    omega

theorem fitsSigned_signedByteLength (n : Int) : fitsSigned n (signedByteLength n) := by
  have hL : 1 ≤ signedByteLength n := by
    unfold signedByteLength
    omega
  set s := bitLength (n + if n < 0 then 1 else 0).natAbs with hs
  have hLs : signedByteLength n = (8 + s) / 8 := by
    unfold signedByteLength
    rw [← hs]
  have hle : s ≤ 8 * signedByteLength n - 1 := by
    rw [hLs]
    omega
  have hMono : (2:Nat) ^ s ≤ 2 ^ (8 * signedByteLength n - 1) :=
    Nat.pow_le_pow_right (by omega) hle
  have hlt : (n + if n < 0 then 1 else 0).natAbs < 2 ^ s := by
    rw [hs]
    exact lt_two_pow_bitLength _
  constructor
  · by_cases hneg : n < 0
    · simp only [hneg, if_pos] at hlt
      omega
    · have : (0:Int) < (2 ^ (8 * signedByteLength n - 1) : Nat) := by positivity
      omega
  · by_cases hneg : n < 0
    · have : (0:Int) < (2 ^ (8 * signedByteLength n - 1) : Nat) := by positivity
      omega
    · simp only [hneg, if_neg, ite_false, add_zero] at hlt
      omega

theorem signedByteLength_min {n : Int} {m : Nat} (hm : 1 ≤ m) (hfit : fitsSigned n m) :
    signedByteLength n ≤ m := by
  obtain ⟨hfit1, hfit2⟩ := hfit
  set s := bitLength (n + if n < 0 then 1 else 0).natAbs with hs
  suffices hsle : s ≤ 8 * m - 1 by
    unfold signedByteLength
    rw [← hs]
    omega
  rw [hs]
  apply bitLength_le_iff.mpr
  by_cases hneg : n < 0
  · simp only [hneg, if_pos]
    omega
  · simp only [hneg, if_neg, ite_false, add_zero]
    omega

/-! ## Tag-skipping lemmas -/

theorem skip_tag_of_core {data : List Nat} {off o : Nat}
    (h : skipTagCore data off = .ok o) (hlt : o < data.length) :
    skip_tag data off = .ok o := by
  simp only [skip_tag, h]
  rw [if_neg (by omega)]

theorem skip_tag_error_of_core_end {data : List Nat} {off o : Nat}
    (h : skipTagCore data off = .ok o) (hend : o ≥ data.length) :
    skip_tag data off = .error (.outOfData tagReadMsg o []) := by
  simp only [skip_tag, h]
  rw [if_pos hend]

theorem skip_tag_lt {data : List Nat} {off o : Nat} (h : skip_tag data off = .ok o) :
    o < data.length := by
  cases hc : skipTagCore data off with
  | error e =>
    simp only [skip_tag, hc] at h
    exact Except.noConfusion h
  | ok o2 =>
    simp only [skip_tag, hc] at h
    by_cases hge : o2 ≥ data.length
    · rw [if_pos hge] at h
      exact Except.noConfusion h
    · rw [if_neg hge] at h
      cases h
      omega

theorem read_tag_of_skip {data : List Nat} {off o : Nat} (h : skip_tag data off = .ok o) :
    read_tag data off = .ok (slice data off o) := by
  unfold read_tag
  rw [h]

theorem read_tag_error_of_skip {data : List Nat} {off : Nat} {e : DecErr}
    (h : skip_tag data off = .error e) : read_tag data off = .error e := by
  unfold read_tag
  rw [h]

theorem skipTagContAux_error_kind {l : List Nat} {off : Nat} {e : DecErr}
    (h : skipTagContAux l off = .error e) : ∃ o, e = .outOfData tagReadMsg o [] := by
  induction l generalizing off with
  | nil =>
    simp only [skipTagContAux] at h
    cases h
    exact ⟨off, rfl⟩
  | cons b rest ih =>
    simp only [skipTagContAux] at h
    by_cases hb : b &&& 0x80 ≠ 0
    · rw [if_pos hb] at h
      exact ih h
    · rw [if_neg hb] at h
      exact Except.noConfusion h

theorem skip_tag_error_kind {data : List Nat} {off : Nat} {e : DecErr}
    (h : skip_tag data off = .error e) : ∃ o, e = .outOfData tagReadMsg o [] := by
  cases hc : skipTagCore data off with
  | error e2 =>
    simp only [skip_tag, hc] at h
    cases h
    cases hb : data[off]? with
    | none =>
      simp only [skipTagCore, hb] at hc
      cases hc
      exact ⟨off, rfl⟩
    | some b =>
      simp only [skipTagCore, hb] at hc
      by_cases h1f : b &&& 0x1f = 0x1f
      · rw [if_pos h1f] at hc
        exact skipTagContAux_error_kind hc
      · rw [if_neg h1f] at hc
        exact Except.noConfusion hc
  | ok o2 =>
    simp only [skip_tag, hc] at h
    by_cases hge : o2 ≥ data.length
    · rw [if_pos hge] at h
      cases h
      exact ⟨o2, rfl⟩
    · rw [if_neg hge] at h
      exact Except.noConfusion h

/-! ## Claim C8 -/

/-- C8: when a syntactically complete tag ends exactly at (or past) the end of
the buffer, `skip_tag` and `read_tag` raise an out-of-data error instead of
returning; consequently every successful `skip_tag` ends strictly before
the end of the buffer, i.e. at least one byte follows the tag. -/
theorem claim_skip_tag_lookahead (data : List Nat) (offset : Nat) :
    (∀ o, skipTagCore data offset = .ok o → o ≥ data.length →
      skip_tag data offset = .error (.outOfData tagReadMsg o []) ∧
      read_tag data offset = .error (.outOfData tagReadMsg o [])) ∧
    (∀ o, skip_tag data offset = .ok o → o < data.length) := by
  constructor
  · intro o hcore hend
    have he := skip_tag_error_of_core_end hcore hend
    exact ⟨he, read_tag_error_of_skip he⟩
  · intro o h
    exact skip_tag_lt h

theorem claim_skip_tag_lookahead_witness :
    skip_tag [2] 0 = .error (.outOfData tagReadMsg 1 []) ∧
    read_tag [2] 0 = .error (.outOfData tagReadMsg 1 []) ∧
    (1:Nat) < 2 := by
  refine ⟨((claim_skip_tag_lookahead [2] 0).1 1 (by rfl) (by norm_num)).1,
    ((claim_skip_tag_lookahead [2] 0).1 1 (by rfl) (by norm_num)).2,
    (claim_skip_tag_lookahead [2, 0] 0).2 1 (by rfl)⟩

/-! ## Claim C4 -/

/-- C4: `decode_length` — the single byte `0x80` means indefinite length,
yielding `(None, offset+1)` when indefinite is permitted and a
definite-length-required decode error when `enforce_definite` holds; a first
byte `0x80 + k` with `k ≠ 0` means long form with `k` following big-endian
length bytes; and for any definite length (short or long form) with fewer
content bytes remaining than declared, the call fails with an error carrying
the declared and the actually available byte counts. -/
theorem claim_decode_length_forms (data : List Nat) (offset b : Nat)
    (hb : data[offset]? = some b) :
    (b = 128 →
      ∀ e, decode_length data offset e =
        if e then .error (.decodeErr definiteLenMsg offset [])
        else .ok (none, offset + 1)) ∧
    (∀ k, b = 128 + k → 1 ≤ k → k ≤ 127 →
      (slice data (offset + 1) (k + (offset + 1))).length = k →
      ∀ e, decode_length data offset e =
        if offset + 1 + k + beVal (slice data (offset + 1) (k + (offset + 1))) > data.length then
          .error (.missingData
            (missingDataMsg (beVal (slice data (offset + 1) (k + (offset + 1))))
              (data.length - (offset + 1 + k))) (offset + 1 + k)
            (beVal (slice data (offset + 1) (k + (offset + 1)))) [])
        else .ok (some (beVal (slice data (offset + 1) (k + (offset + 1)))), offset + 1 + k)) ∧
    (b ≤ 127 → offset + 1 + b > data.length →
      ∀ e, decode_length data offset e =
        .error (.missingData (missingDataMsg b (data.length - (offset + 1))) (offset + 1) b [])) := by
  refine ⟨?_, ?_, ?_⟩
  · intro h128 e
    subst h128
    rw [decode_length_some data offset 128 e hb]
    rw [if_pos (and128_ne_zero (by omega) (by omega)), if_pos rfl]
    simp only [Nat.add_sub_cancel]
  · intro k hbk hk1 hk127 hsl e
    subst hbk
    rw [decode_length_some data offset (128 + k) e hb]
    rw [if_pos (and128_ne_zero (by omega) (by omega)), if_neg (by omega)]
    have hand7 : (128 + k) &&& 127 = k := by
      rw [and127_eq_mod]
      omega
    rw [hand7, if_neg (by omega)]
  · intro hble hshort e
    rw [decode_length_some data offset b e hb]
    rw [if_neg (by simp [and128_eq_zero (show b < 128 by omega)]), if_pos (by omega)]

set_option maxRecDepth 10000 in
theorem claim_decode_length_forms_witness :
    decode_length [128] 0 true = .error (.decodeErr definiteLenMsg 0 []) ∧
    decode_length [128] 0 false = .ok (none, 1) ∧
    decode_length ([129, 130] ++ List.replicate 130 7) 0 true = .ok (some 130, 2) ∧
    decode_length [129, 200, 1, 2] 0 true =
      .error (.missingData (missingDataMsg 200 2) 2 200 []) ∧
    decode_length [5, 1, 2] 0 true =
      .error (.missingData (missingDataMsg 5 2) 1 5 []) := by
  have h1 := (claim_decode_length_forms [128] 0 128 (by rfl)).1 rfl
  have h2 := (claim_decode_length_forms ([129, 130] ++ List.replicate 130 7) 0 129
    (by rfl)).2.1 1 rfl (by norm_num) (by norm_num) (by rfl)
  have h2b := (claim_decode_length_forms [129, 200, 1, 2] 0 129 (by rfl)).2.1 1 rfl
    (by norm_num) (by norm_num) (by rfl)
  have h3 := (claim_decode_length_forms [5, 1, 2] 0 5 (by rfl)).2.2 (by norm_num) (by norm_num)
  refine ⟨?_, ?_, ?_, ?_, ?_⟩
  · exact (h1 true).trans (by rfl)
  · exact (h1 false).trans (by rfl)
  · exact (h2 true).trans (by rfl)
  · exact (h2b true).trans (by rfl)
  · exact (h3 true).trans (by rfl)

/-! ## Claim C7 -/

/-- C7: `decode_full_length` computes the total tag+length+contents span of
one element without decoding it; when the tag is readable and a definite
length is parsed but fewer content bytes remain than declared, it returns the
estimate `contents_offset + declared_length` instead of failing; and it
returns `None` whenever the tag cannot be read (`skip_tag` raising
out-of-data). -/
theorem claim_decode_full_length (data : List Nat) :
    (∀ o1 L o2 m, skip_tag data 0 = .ok o1 →
      (decode_length data o1 true = .ok (some L, o2) ∨
        decode_length data o1 true = .error (.missingData m o2 L [])) →
      decode_full_length data = .ok (some (o2 + L))) ∧
    (∀ e, skip_tag data 0 = .error e → decode_full_length data = .ok none) := by
  constructor
  · intro o1 L o2 m hskip hdl
    cases hdl with
    | inl h =>
      simp only [decode_full_length, skip_tag_length_contents, hskip, h, Option.getD_some]
      rw [Nat.add_comm]
    | inr h =>
      simp only [decode_full_length, skip_tag_length_contents, hskip, h]
  · intro e hskip
    obtain ⟨o, rfl⟩ := skip_tag_error_kind hskip
    simp only [decode_full_length, skip_tag_length_contents, hskip]

theorem claim_decode_full_length_witness :
    decode_full_length [4, 3, 9, 9] = .ok (some 5) ∧
    decode_full_length [4, 3, 9, 9, 9] = .ok (some 5) ∧
    decode_full_length [4] = .ok none := by
  refine ⟨?_, ?_, ?_⟩
  · exact (claim_decode_full_length [4, 3, 9, 9]).1 1 3 2 (missingDataMsg 3 2) (by rfl)
      (Or.inr (by rfl))
  · exact (claim_decode_full_length [4, 3, 9, 9, 9]).1 1 3 2 "" (by rfl) (Or.inl (by rfl))
  · exact (claim_decode_full_length [4]).2 (.outOfData tagReadMsg 1 []) (by rfl)

/-! ## Claim C5 -/

/-- C5: signed INTEGER values encode as the minimal-length two's-complement
big-endian byte string — the encoding round-trips through
`int.from_bytes(..., signed=True)`, fits including its sign bit, and no
shorter (non-empty) width fits; `Integer.decode_content` over the declared
content length is the exact inverse; and the INTEGER value `-129` encodes to
tag `02`, length `02`, contents `FF 7F`. -/
theorem claim_signed_integer_minimal (n : Int) :
    fromSignedBE (encode_signed_integer n) = n ∧
    (encode_signed_integer n).length = signedByteLength n ∧
    1 ≤ signedByteLength n ∧
    fitsSigned n (signedByteLength n) ∧
    (∀ m, 1 ≤ m → fitsSigned n m → signedByteLength n ≤ m) ∧
    (∀ data offset,
      slice data offset (offset + (encode_signed_integer n).length) = encode_signed_integer n →
      intDecodeContent data offset (some (encode_signed_integer n).length) =
        .ok (.int n, offset + (encode_signed_integer n).length)) ∧
    compiledEncode .integer (.int (-129)) = .ok [2, 2, 255, 127] := by
  have hL : 1 ≤ signedByteLength n := by
    unfold signedByteLength
    omega
  have hfit := fitsSigned_signedByteLength n
  have hrt : fromSignedBE (encode_signed_integer n) = n := fromSigned_toSigned hL hfit
  refine ⟨hrt, length_encode_signed_integer n, hL, hfit,
    fun m hm hf => signedByteLength_min hm hf, ?_, by rfl⟩
  intro data offset hsl
  simp only [intDecodeContent]
  rw [hsl, hrt]

theorem claim_signed_integer_minimal_witness :
    fromSignedBE (encode_signed_integer (-129)) = -129 ∧
    signedByteLength (-129) ≤ 2 ∧
    intDecodeContent [255, 127] 0 (some 2) = .ok (.int (-129), 2) := by
  have h := claim_signed_integer_minimal (-129)
  refine ⟨h.1, h.2.2.2.2.1 2 (by norm_num) ⟨by norm_num, by norm_num⟩, ?_⟩
  exact h.2.2.2.2.2.1 [255, 127] 0 (by rfl)

/-! ## Claim C9 -/

/-- C9: the Boolean node's decode accepts any non-zero content byte as
`True`, not only the `0xFF` its encode produces — with declared content
length 1 it decodes the content byte `b` to the truth value `b ≠ 0`;
any other declared length raises the BOOLEAN-length decode error. -/
theorem claim_boolean_nonzero_true (data : List Nat) (offset L b o2 : Nat)
    (htag : slice data offset (offset + 1) = [1])
    (hlen : decode_length data (offset + 1) true = .ok (some L, o2))
    (hb : data[o2]? = some b) :
    (L = 1 →
      TypeNode.boolean.decodeF data offset .nil = .ok (.ok (.bool (b != 0)) (o2 + 1))) ∧
    (L ≠ 1 →
      TypeNode.boolean.decodeF data offset .nil =
        .error (.decodeErr (boolLenMsg (some L)) (o2 - 1) [])) := by
  have hstep : TypeNode.boolean.decodeF data offset .nil =
      match boolDecodeContent data o2 (some L) with
      | .error e => .error e
      | .ok (v, endOffset) => .ok (.ok v endOffset) := by
    simp only [TypeNode.decodeF, standardDecode, List.length_cons, List.length_nil,
      Bool.not_false]
    rw [if_pos htag, hlen]
  constructor
  · intro h1
    subst h1
    rw [hstep]
    simp only [boolDecodeContent, if_neg (show ¬(some 1 ≠ some 1) by simp), hb]
  · intro hne
    rw [hstep]
    simp only [boolDecodeContent]
    rw [if_pos (by simpa using hne)]

theorem claim_boolean_nonzero_true_witness :
    TypeNode.boolean.decodeF [1, 1, 5] 0 .nil = .ok (.ok (.bool true) 3) ∧
    TypeNode.boolean.decodeF [1, 2, 0, 0] 0 .nil =
      .error (.decodeErr (boolLenMsg (some 2)) 1 []) := by
  refine ⟨?_, ?_⟩
  · exact (claim_boolean_nonzero_true [1, 1, 5] 0 1 5 2 (by rfl) (by rfl) (by rfl)).1 rfl
  · exact (claim_boolean_nonzero_true [1, 2, 0, 0] 0 2 0 2 (by rfl) (by rfl) (by rfl)).2
      (by norm_num)

/-! ## Claim C10 -/

/-- C10: `Enumerated.decode_content` on a content integer missing from the
value table returns `None` with the end offset advanced past the content when
the enumeration declares an extension marker, and raises the decode error
enumerating the expected (sorted) values when it does not. -/
theorem claim_enumerated_unknown_value (e : EnumeratedT) (data : List Nat) (offset L : Nat)
    (hlook : enumLookupV e.valueToData (fromSignedBE (slice data offset (offset + L))) = none) :
    (e.hasExtensionMarker = true →
      enumDecodeContent e data offset (some L) = .ok (none, offset + L)) ∧
    (e.hasExtensionMarker = false →
      enumDecodeContent e data offset (some L) =
        .error (.enumErr (sortInts (e.valueToData.map Prod.fst))
          (fromSignedBE (slice data offset (offset + L))) offset [])) := by
  constructor <;> intro hext <;> simp [enumDecodeContent, hlook, hext]

theorem claim_enumerated_unknown_value_witness :
    enumDecodeContent ⟨[(0, "a"), (1, "b")], true⟩ [5] 0 (some 1) = .ok (none, 1) ∧
    enumDecodeContent ⟨[(0, "a"), (1, "b")], false⟩ [5] 0 (some 1) =
      .error (.enumErr [0, 1] 5 0 []) := by
  refine ⟨?_, ?_⟩
  · exact (claim_enumerated_unknown_value ⟨[(0, "a"), (1, "b")], true⟩ [5] 0 1 (by rfl)).1 rfl
  · exact ((claim_enumerated_unknown_value ⟨[(0, "a"), (1, "b")], false⟩ [5] 0 1
      (by rfl)).2 rfl).trans (by rfl)

/-! ## Claim C3 -/

/-- C3: `Choice.decode` on a tag absent from its tag-to-member table — with
an extension marker it skips the whole tag+length+contents span of the
unknown element (landing just past the declared contents) and decodes to the
`(None, None)` placeholder; without the marker it returns the `TAG_MISMATCH`
result (not an exception) to the caller. -/
theorem claim_choice_unknown_tag (members : List ChoiceMemberI) (data : List Nat)
    (offset : Nat) (tag : List Nat)
    (hread : read_tag data offset = .ok tag)
    (hmiss : lookupLastTag (choiceTagToMember members) tag = none) :
    (∀ o1 L o2, skip_tag data offset = .ok o1 →
      decode_length data o1 true = .ok (some L, o2) →
      choiceDecode members true data offset = .ok (.ok .choiceEmpty (o2 + L))) ∧
    choiceDecode members false data offset = .ok (.mismatch offset) := by
  constructor
  · intro o1 L o2 hskip hdl
    simp only [choiceDecode, hread, hmiss, if_pos, skip_tag_length_contents, hskip, hdl,
      Option.getD_some]
    rw [Nat.add_comm]
  · simp [choiceDecode, hread, hmiss]

theorem claim_choice_unknown_tag_witness :
    choiceDecode (interpChoiceMembers (.cons "x" .boolean .nil)) true [2, 1, 5] 0 =
      .ok (.ok .choiceEmpty 3) ∧
    choiceDecode (interpChoiceMembers (.cons "x" .boolean .nil)) false [2, 1, 5] 0 =
      .ok (.mismatch 0) := by
  refine ⟨?_, ?_⟩
  · exact (claim_choice_unknown_tag (interpChoiceMembers (.cons "x" .boolean .nil))
      [2, 1, 5] 0 [2] (by rfl) (by rfl)).1 1 1 2 (by rfl) (by rfl)
  · exact (claim_choice_unknown_tag (interpChoiceMembers (.cons "x" .boolean .nil))
      [2, 1, 5] 0 [2] (by rfl) (by rfl)).2

/-! ## Claim C2 -/

theorem handleRemaining_all_ok {data : List Nat} {rem : List MemberI} {values : FieldList}
    {off : Nat} {out : Bool}
    (h : ∀ m ∈ rem, m.optional = true ∨ m.default.isSome) :
    handleRemaining data rem values off out false = .ok (installDefaults rem values) := by
  induction rem generalizing values with
  | nil => rfl
  | cons m rest ih =>
    have hm := h m (by simp)
    have hrest : ∀ m2 ∈ rest, m2.optional = true ∨ m2.default.isSome := by
      intro m2 hm2
      exact h m2 (by simp [hm2])
    by_cases hopt : m.optional = true
    · simp only [handleRemaining, installDefaults, hopt, if_pos]
      exact ih hrest
    · have hdef : m.default.isSome := by
        rcases hm with h1 | h1
        · exact absurd h1 hopt
        · exact h1
      obtain ⟨d, hd⟩ := Option.isSome_iff_exists.mp hdef
      simp only [handleRemaining, installDefaults, hopt, if_neg, Bool.false_eq_true, hd]
      exact ih hrest

theorem handleRemaining_first_bad {data : List Nat} {values : FieldList} {off : Nat}
    {out : Bool} (pre : List MemberI) (m : MemberI) (post : List MemberI)
    (hpre : ∀ m2 ∈ pre, m2.optional = true ∨ m2.default.isSome)
    (hopt : m.optional = false) (hdef : m.default = none) :
    handleRemaining data (pre ++ m :: post) values off out false =
      (if out then .error (.missingMandatory m.name off [m.name])
       else throwTagError m.expectedTags m.tagLen data off [m.name]) := by
  induction pre generalizing values with
  | nil =>
    simp only [List.nil_append, handleRemaining, hopt, hdef]
    cases out <;> simp
  | cons p rest ih =>
    have hp := hpre p (by simp)
    have hrest : ∀ m2 ∈ rest, m2.optional = true ∨ m2.default.isSome := by
      intro m2 hm2
      exact hpre m2 (by simp [hm2])
    by_cases hpopt : p.optional = true
    · simp only [List.cons_append, handleRemaining, hpopt, if_pos]
      exact ih hrest
    · have hpdef : p.default.isSome := by
        rcases hp with h1 | h1
        · exact absurd h1 hpopt
        · exact h1
      obtain ⟨d, hd⟩ := Option.isSome_iff_exists.mp hpdef
      simp only [List.cons_append, handleRemaining, hpopt, if_neg, Bool.false_eq_true, hd]
      exact ih hrest

/-- C2: after the worklist passes of `MembersType.decode_members` (root pass,
`ignore_missing=False`), every member still undecoded is handled in order:
optional members are ignored, defaulted members have their default installed
into the result map, and the first member that is neither fails the decode —
with `MissingMandatoryFieldError` naming the member when the input was
exhausted, and with a `DecodeTagError` naming the member's expected tag(s)
when input bytes remain. -/
theorem claim_members_post_handling (data : List Nat) (endOffset : Option Nat)
    (members : List MemberI) (values : FieldList) (offset : Nat)
    (rem : List MemberI) (vals2 : FieldList) (off2 : Nat) (out2 : Bool)
    (hloop : decodeMembersLoop data endOffset (members.length + 1) members values offset =
      .ok (rem, vals2, off2, out2)) :
    ((∀ m ∈ rem, m.optional = true ∨ m.default.isSome) →
      decodeMembers data endOffset members values offset false =
        .ok (installDefaults rem vals2, off2, out2)) ∧
    (∀ pre m post, rem = pre ++ m :: post →
      (∀ m2 ∈ pre, m2.optional = true ∨ m2.default.isSome) →
      m.optional = false → m.default = none →
      (out2 = true →
        decodeMembers data endOffset members values offset false =
          .error (.missingMandatory m.name off2 [m.name])) ∧
      (out2 = false → ∀ LT, m.tagLen = some LT →
        decodeMembers data endOffset members values offset false =
          .error (.tagErr m.expectedTags (slice data off2 (off2 + LT)) off2 [m.name]))) := by
  constructor
  · intro hall
    simp only [decodeMembers, hloop, handleRemaining_all_ok hall]
  · intro pre m post hrem hpre hopt hdef
    subst hrem
    constructor
    · intro hout
      subst hout
      simp only [decodeMembers, hloop, handleRemaining_first_bad pre m post hpre hopt hdef,
        if_pos]
    · intro hout LT htl
      subst hout
      simp only [decodeMembers, hloop, handleRemaining_first_bad pre m post hpre hopt hdef,
        if_neg, Bool.false_eq_true, throwTagError, htl]
      simp

theorem claim_members_post_handling_witness :
    decodeMembers [] (some 0) (interpMembers (.cons "a" false none .integer .nil)) .nil 0 false =
      .error (.missingMandatory "a" 0 ["a"]) ∧
    decodeMembers [5, 0] (some 2)
        (interpMembers (.cons "a" true none .integer
          (.cons "b" false (some (.int 9)) .integer .nil))) .nil 0 false =
      .ok (.cons "b" (.int 9) .nil, 0, false) := by
  refine ⟨?_, ?_⟩
  · exact ((claim_members_post_handling [] (some 0)
      (interpMembers (.cons "a" false none .integer .nil)) .nil 0
      (interpMembers (.cons "a" false none .integer .nil)) .nil 0 true (by rfl)).2
      [] _ [] rfl (by intro m2 hm2; cases hm2) rfl rfl).1 rfl
  · exact ((claim_members_post_handling [5, 0] (some 2)
      (interpMembers (.cons "a" true none .integer
        (.cons "b" false (some (.int 9)) .integer .nil))) .nil 0
      (interpMembers (.cons "a" true none .integer
        (.cons "b" false (some (.int 9)) .integer .nil))) .nil 0 false (by rfl)).1
      (by intro m hm; fin_cases hm <;> simp [interpMembers])).trans (by rfl)

/-! ## Claim C6 -/

theorem encodeMember_default_nil {typeName : String} {m : MemberI} {fields : FieldList}
    {v : Value} (hlook : fields.lookup m.name = some v) (hdef : m.isDefault v = true) :
    encodeMember typeName m fields = .ok [] := by
  simp [encodeMember, hlook, hdef]

theorem encodeRootMembers_skip (typeName : String) (pre : List MemberI) (m : MemberI)
    (post : List MemberI) (fields : FieldList)
    (h : encodeMember typeName m fields = .ok []) :
    encodeRootMembers typeName (pre ++ m :: post) fields =
      encodeRootMembers typeName (pre ++ post) fields := by
  induction pre with
  | nil =>
    simp only [List.nil_append, encodeRootMembers, h]
    cases hp : encodeRootMembers typeName post fields <;> simp
  | cons p rest ih =>
    simp only [List.cons_append, encodeRootMembers, List.append_eq]
    rw [ih]

/-- C6: when `MembersType` encodes a value in which a member's supplied value
equals that member's declared default under the member's `is_default`
comparison, the member contributes no bytes at all to the produced encoding;
and for BIT STRING members the comparison is performed after masking unused
trailing bits (`clean_bit_string_value`) on both sides. -/
theorem claim_default_members_omitted (typeName : String) (pre post : List MemberI)
    (m : MemberI) (additions : Option (List (List MemberI))) (fields : FieldList)
    (v : Value) (hlook : fields.lookup m.name = some v) (hdef : m.isDefault v = true) :
    membersEncodeContent typeName (pre ++ m :: post) additions fields =
      membersEncodeContent typeName (pre ++ post) additions fields ∧
    (∀ hasNamedBits bs n dbs dn,
      clean_bit_string_value (bs, n) hasNamedBits =
        clean_bit_string_value (dbs, dn) hasNamedBits →
      bitStringIsDefault hasNamedBits (some (.bits dbs dn)) (.bits bs n) = true) := by
  constructor
  · simp only [membersEncodeContent,
      encodeRootMembers_skip typeName pre m post fields (encodeMember_default_nil hlook hdef)]
  · intro hasNamedBits bs n dbs dn hclean
    simp [bitStringIsDefault, hclean]

/-! ## Induction principles for the mutually defined list types -/

theorem fieldListInduction {motive : FieldList → Prop}
    (hnil : motive .nil)
    (hcons : ∀ k v rest, motive rest → motive (.cons k v rest)) :
    ∀ vs, motive vs
  | .nil => hnil
  | .cons k v rest => hcons k v rest (fieldListInduction hnil hcons rest)

theorem memberListInduction {motive : MemberList → Prop}
    (hnil : motive .nil)
    (hcons : ∀ n opt dflt t rest, motive rest → motive (.cons n opt dflt t rest)) :
    ∀ ms, motive ms
  | .nil => hnil
  | .cons n opt dflt t rest => hcons n opt dflt t rest (memberListInduction hnil hcons rest)

theorem choiceListInduction {motive : ChoiceList → Prop}
    (hnil : motive .nil)
    (hcons : ∀ n t rest, motive rest → motive (.cons n t rest)) :
    ∀ ms, motive ms
  | .nil => hnil
  | .cons n t rest => hcons n t rest (choiceListInduction hnil hcons rest)

/-! ## FieldList lemmas -/

theorem FieldList.append_nil (vs : FieldList) : vs.append .nil = vs := by
  induction vs using fieldListInduction with
  | hnil => rfl
  | hcons k v rest ih => simp [FieldList.append, ih]

theorem FieldList.append_assoc (a b c : FieldList) :
    (a.append b).append c = a.append (b.append c) := by
  induction a using fieldListInduction with
  | hnil => rfl
  | hcons k v rest ih => simp [FieldList.append, ih]

theorem FieldList.insert_fresh {vs : FieldList} {nm : String} (v : Value)
    (h : vs.lookup nm = none) : vs.insert nm v = vs.append (.cons nm v .nil) := by
  induction vs using fieldListInduction with
  | hnil => rfl
  | hcons k w rest ih =>
    simp only [FieldList.lookup] at h
    by_cases hk : k = nm
    · rw [if_pos hk] at h
      exact Option.noConfusion h
    · rw [if_neg hk] at h
      simp [FieldList.insert, FieldList.append, hk, ih h]

theorem FieldList.lookup_append_single (vs : FieldList) (nm k : String) (v : Value) :
    (vs.append (.cons nm v .nil)).lookup k =
      (vs.lookup k).elim (if nm = k then some v else none) some := by
  induction vs using fieldListInduction with
  | hnil => rfl
  | hcons k2 w rest ih =>
    by_cases hk : k2 = k
    · simp [FieldList.append, FieldList.lookup, hk, Option.elim]
    · simp [FieldList.append, FieldList.lookup, hk, ih]

/-! ## Interpretation lemmas -/

theorem interpMembers_cons (n : String) (opt : Bool) (dflt : Option Value) (t : TypeNode)
    (rest : MemberList) :
    interpMembers (.cons n opt dflt t rest) = interpMember n opt dflt t :: interpMembers rest :=
  rfl

theorem interpChoiceMembers_cons (n : String) (t : TypeNode) (rest : ChoiceList) :
    interpChoiceMembers (.cons n t rest) = interpChoiceMember n t :: interpChoiceMembers rest :=
  rfl

theorem choiceTags_cons (n : String) (t : TypeNode) (rest : ChoiceList) :
    choiceTags (.cons n t rest) = t.tagSet ++ choiceTags rest :=
  rfl

theorem interpMembers_names (roots : MemberList) :
    (interpMembers roots).map MemberI.name = memberNames roots := by
  induction roots using memberListInduction with
  | hnil => rfl
  | hcons n opt dflt t rest ih =>
    simp [interpMembers_cons, interpMember, memberNames, ih]

theorem nodupB_nodup {l : List String} (h : nodupB l = true) : l.Nodup := by
  induction l with
  | nil => simp
  | cons x xs ih =>
    simp only [nodupB, Bool.and_eq_true, Bool.not_eq_true', decide_eq_false_iff_not] at h
    exact List.nodup_cons.mpr ⟨h.1, ih h.2⟩

theorem decodeF_values_indep (t : TypeNode) (d : List Nat) (o : Nat) (v1 v2 : FieldList) :
    t.decodeF d o v1 = t.decodeF d o v2 := by
  cases t <;> rfl

theorem disjointTagsB_not_mem {a b : List (List Nat)} {x : List Nat}
    (h : disjointTagsB a b = true) (hx : x ∈ a) : x ∉ b := by
  simp only [disjointTagsB, List.all_eq_true] at h
  have := h x hx
  simpa using this

theorem choiceTags_mem {ms : ChoiceList} {tg : List Nat} :
    tg ∈ choiceTags ms ↔ ∃ ts ∈ choiceTagSets ms, tg ∈ ts := by
  induction ms using choiceListInduction with
  | hnil => simp [choiceTags, choiceTagSets]
  | hcons n t rest ih =>
    simp [choiceTags_cons, choiceTagSets, List.mem_append, ih]

theorem memberTagsUnion_mem {ms : MemberList} {tg : List Nat} :
    tg ∈ memberTagsUnion ms ↔ ∃ ts ∈ memberTagSets ms, tg ∈ ts := by
  induction ms using memberListInduction with
  | hnil => simp [memberTagsUnion, memberTagSets]
  | hcons n opt dflt t rest ih =>
    simp [memberTagsUnion, memberTagSets, List.mem_append, ih]

/-! ## Last-wins dictionary lookups -/

theorem foldl_step_acc {α β : Type} (f : Option β → α → Option β)
    (hf : ∀ a m, f a m = (f none m).elim a some)
    (xs : List α) (acc : Option β) :
    xs.foldl f acc = (xs.foldl f none).elim acc some := by
  induction xs generalizing acc with
  | nil => simp [Option.elim]
  | cons x xs ih =>
    simp only [List.foldl_cons]
    rw [ih (f acc x), ih (f none x), hf acc x]
    cases hxs : xs.foldl f none <;> simp [Option.elim]

theorem lookupLastName_cons (x : ChoiceMemberI) (xs : List ChoiceMemberI) (n : String) :
    lookupLastName (x :: xs) n =
      (lookupLastName xs n).elim (if x.name = n then some x else none) some := by
  unfold lookupLastName
  simp only [List.foldl_cons]
  exact foldl_step_acc _ (fun a m => by by_cases h : m.name = n <;> simp [h, Option.elim]) xs _

theorem lookupLastTag_cons (x : List Nat × ChoiceMemberI)
    (xs : List (List Nat × ChoiceMemberI)) (tag : List Nat) :
    lookupLastTag (x :: xs) tag =
      (lookupLastTag xs tag).elim (if x.1 = tag then some x.2 else none) some := by
  unfold lookupLastTag
  simp only [List.foldl_cons]
  exact foldl_step_acc _ (fun a p => by by_cases h : p.1 = tag <;> simp [h, Option.elim]) xs _

theorem lookupLastTag_append (t1 t2 : List (List Nat × ChoiceMemberI)) (tag : List Nat) :
    lookupLastTag (t1 ++ t2) tag =
      (lookupLastTag t2 tag).elim (lookupLastTag t1 tag) some := by
  unfold lookupLastTag
  rw [List.foldl_append]
  exact foldl_step_acc _ (fun a p => by by_cases h : p.1 = tag <;> simp [h, Option.elim]) t2 _

theorem lookupLastTag_none {table : List (List Nat × ChoiceMemberI)} {tag : List Nat}
    (h : ∀ p ∈ table, p.1 ≠ tag) : lookupLastTag table tag = none := by
  induction table with
  | nil => rfl
  | cons x xs ih =>
    rw [lookupLastTag_cons, ih (fun p hp => h p (by simp [hp]))]
    simp [Option.elim, h x (by simp)]

theorem lookupLastTag_block {m : ChoiceMemberI} {tags : List (List Nat)} {tag : List Nat}
    (h : tag ∈ tags) : lookupLastTag (tags.map fun t => (t, m)) tag = some m := by
  induction tags with
  | nil => cases h
  | cons t ts ih =>
    simp only [List.map_cons]
    rw [lookupLastTag_cons]
    by_cases hmem : tag ∈ ts
    · rw [ih hmem]
      rfl
    · have ht : t = tag := by
        cases h with
        | head => rfl
        | tail _ h2 => exact absurd h2 hmem
      have hnone : lookupLastTag (ts.map fun t2 => (t2, m)) tag = none := by
        apply lookupLastTag_none
        intro p hp
        simp only [List.mem_map] at hp
        obtain ⟨t2, ht2, rfl⟩ := hp
        intro hcon
        exact hmem (hcon ▸ ht2)
      rw [hnone]
      simp [Option.elim, ht]

theorem choiceTagToMember_cons (x : ChoiceMemberI) (xs : List ChoiceMemberI) :
    choiceTagToMember (x :: xs) = (x.tags.map fun t => (t, x)) ++ choiceTagToMember xs := by
  simp [choiceTagToMember]

theorem choiceHasName_false_mem {ms : ChoiceList} {n : String}
    (h : choiceHasName ms n = false) :
    lookupLastName (interpChoiceMembers ms) n = none := by
  induction ms using choiceListInduction with
  | hnil => rfl
  | hcons mn t rest ih =>
    simp only [choiceHasName, Bool.or_eq_false_iff, beq_eq_false_iff_ne] at h
    rw [interpChoiceMembers_cons, lookupLastName_cons, ih h.2]
    simp [Option.elim, interpChoiceMember, h.1]

theorem lookupLastTag_interp_none {ms : ChoiceList} {tag : List Nat}
    (h : tag ∉ choiceTags ms) :
    lookupLastTag (choiceTagToMember (interpChoiceMembers ms)) tag = none := by
  induction ms using choiceListInduction with
  | hnil => rfl
  | hcons n t rest ih =>
    rw [choiceTags_cons] at h
    simp only [List.mem_append, not_or] at h
    rw [interpChoiceMembers_cons, choiceTagToMember_cons, lookupLastTag_append, ih h.2]
    have hnone : lookupLastTag ((interpChoiceMember n t).tags.map
        fun tg2 => (tg2, interpChoiceMember n t)) tag = none := by
      apply lookupLastTag_none
      intro p hp
      simp only [List.mem_map] at hp
      obtain ⟨t2, ht2, rfl⟩ := hp
      intro hcon
      exact h.1 (hcon ▸ ht2)
    rw [show ((interpChoiceMember n t).tags.map fun tg2 => (tg2, interpChoiceMember n t))
        = (t.tagSet.map fun tg2 => (tg2, interpChoiceMember n t)) from rfl] at hnone
    simpa [Option.elim] using hnone

/-! ## sizeOf facts for the schema types -/

theorem sizeOf_choice_head (n : String) (t : TypeNode) (rest : ChoiceList) :
    sizeOf t < sizeOf (ChoiceList.cons n t rest) := by
  simp
  omega

theorem sizeOf_choice_tail (n : String) (t : TypeNode) (rest : ChoiceList) :
    sizeOf rest < sizeOf (ChoiceList.cons n t rest) := by
  simp

theorem sizeOf_member_head (n : String) (opt : Bool) (dflt : Option Value) (t : TypeNode)
    (rest : MemberList) :
    sizeOf t < sizeOf (MemberList.cons n opt dflt t rest) := by
  simp
  omega

theorem sizeOf_member_tail (n : String) (opt : Bool) (dflt : Option Value) (t : TypeNode)
    (rest : MemberList) :
    sizeOf rest < sizeOf (MemberList.cons n opt dflt t rest) := by
  simp

theorem sizeOf_sequence_members (roots : MemberList) :
    sizeOf roots < sizeOf (TypeNode.sequence roots) := by
  simp

theorem sizeOf_choice_members (ms : ChoiceList) (ext : Bool) :
    sizeOf ms < sizeOf (TypeNode.choice ms ext) := by
  simp
  omega

/-! ## Choice encode/decode alignment -/

theorem choice_align {ms : ChoiceList} :
    ∀ {n : String} {v : Value},
    validChoiceB ms n v = true →
    pairwiseDisjointB (choiceTagSets ms) = true →
    ∃ t0, lookupLastName (interpChoiceMembers ms) n = some (interpChoiceMember n t0) ∧
      validV t0 v = true ∧
      (wfChoiceB ms = true → t0.wfB = true) ∧
      sizeOf t0 < sizeOf ms ∧
      (∀ tg ∈ t0.tagSet, tg ∈ choiceTags ms) ∧
      (∀ tg ∈ t0.tagSet,
        lookupLastTag (choiceTagToMember (interpChoiceMembers ms)) tg =
          some (interpChoiceMember n t0)) := by
  induction ms using choiceListInduction with
  | hnil =>
    intro n v hv _
    simp [validChoiceB] at hv
  | hcons mn t rest ih =>
    intro n v hv hdisj
    have hdisj2 : pairwiseDisjointB (choiceTagSets rest) = true := by
      simp only [choiceTagSets, pairwiseDisjointB, Bool.and_eq_true] at hdisj
      exact hdisj.2
    have hdisjHead : ∀ ts ∈ choiceTagSets rest, disjointTagsB t.tagSet ts = true := by
      simp only [choiceTagSets, pairwiseDisjointB, Bool.and_eq_true, List.all_eq_true] at hdisj
      exact hdisj.1
    by_cases hname : choiceHasName rest n = true
    · have hv2 : validChoiceB rest n v = true := by
        simp only [validChoiceB, hname, if_pos] at hv
        exact hv
      obtain ⟨t0, hlk, hval, hwf0, hsz, hsub, hdisp⟩ := ih hv2 hdisj2
      refine ⟨t0, ?_, hval, ?_, ?_, ?_, ?_⟩
      · rw [interpChoiceMembers_cons, lookupLastName_cons, hlk]
        rfl
      · intro hwfc
        simp only [wfChoiceB, Bool.and_eq_true] at hwfc
        exact hwf0 hwfc.2
      · exact hsz.trans (sizeOf_choice_tail mn t rest)
      · intro tg htg
        rw [choiceTags_cons]
        exact List.mem_append_right _ (hsub tg htg)
      · intro tg htg
        rw [interpChoiceMembers_cons, choiceTagToMember_cons, lookupLastTag_append,
          hdisp tg htg]
        rfl
    · have hname2 : choiceHasName rest n = false := by
        cases hh : choiceHasName rest n with
        | false => rfl
        | true => exact absurd hh hname
      by_cases hmn : mn = n
      · subst hmn
        have hval : validV t v = true := by
          simp only [validChoiceB, hname2, Bool.false_eq_true, if_neg, if_pos] at hv
          exact hv
        refine ⟨t, ?_, hval, ?_, ?_, ?_, ?_⟩
        · rw [interpChoiceMembers_cons, lookupLastName_cons, choiceHasName_false_mem hname2]
          simp [Option.elim, interpChoiceMember]
        · intro hwfc
          simp only [wfChoiceB, Bool.and_eq_true] at hwfc
          exact hwfc.1
        · exact sizeOf_choice_head mn t rest
        · intro tg htg
          rw [choiceTags_cons]
          exact List.mem_append_left _ htg
        · intro tg htg
          have hrest : tg ∉ choiceTags rest := by
            rw [choiceTags_mem]
            rintro ⟨ts, hts, htgts⟩
            exact disjointTagsB_not_mem (hdisjHead ts hts) htg htgts
          rw [interpChoiceMembers_cons, choiceTagToMember_cons, lookupLastTag_append,
            lookupLastTag_interp_none hrest]
          exact lookupLastTag_block htg
      · exfalso
        simp only [validChoiceB, hname2, Bool.false_eq_true, if_neg, hmn] at hv
        exact Bool.noConfusion hv

theorem claim_default_members_omitted_witness :
    membersEncodeContent "Sequence"
      ([] ++ bitStringMemberI "f" false (some (.bits [229] 3)) false ::
        interpMembers (.cons "g" false none .integer .nil)) none
      (.cons "f" (.bits [255] 3) (.cons "g" (.int 7) .nil)) =
    membersEncodeContent "Sequence" ([] ++ interpMembers (.cons "g" false none .integer .nil))
      none (.cons "f" (.bits [255] 3) (.cons "g" (.int 7) .nil)) ∧
    membersEncodeContent "Sequence" ([] ++ interpMembers (.cons "g" false none .integer .nil))
      none (.cons "f" (.bits [255] 3) (.cons "g" (.int 7) .nil)) = .ok [2, 1, 7] ∧
    bitStringIsDefault false (some (.bits [229] 3)) (.bits [255] 3) = true := by
  refine ⟨?_, by rfl, ?_⟩
  · exact (claim_default_members_omitted "Sequence" []
      (interpMembers (.cons "g" false none .integer .nil))
      (bitStringMemberI "f" false (some (.bits [229] 3)) false) none
      (.cons "f" (.bits [255] 3) (.cons "g" (.int 7) .nil)) (.bits [255] 3)
      (by rfl) (by rfl)).1
  · exact (claim_default_members_omitted "Sequence" []
      (interpMembers (.cons "g" false none .integer .nil))
      (bitStringMemberI "f" false (some (.bits [229] 3)) false) none
      (.cons "f" (.bits [255] 3) (.cons "g" (.int 7) .nil)) (.bits [255] 3)
      (by rfl) (by rfl)).2 false [255] 3 [229] 3 (by rfl)


/-! ## Value-shape inversions of `validV` -/

theorem validV_boolean {v : Value} (h : validV .boolean v = true) : ∃ b, v = .bool b := by
  cases v
  case bool b => exact ⟨b, rfl⟩
  all_goals simp [validV] at h

theorem validV_integer {v : Value} (h : validV .integer v = true) : ∃ n, v = .int n := by
  cases v
  case int n => exact ⟨n, rfl⟩
  all_goals simp [validV] at h

theorem validV_null {v : Value} (h : validV .nullT v = true) : v = .null := by
  cases v
  case null => rfl
  all_goals simp [validV] at h

theorem validV_octet {v : Value} (h : validV .octetString v = true) : ∃ c, v = .bytes c := by
  cases v
  case bytes c => exact ⟨c, rfl⟩
  all_goals simp [validV] at h

theorem validV_sequence {roots : MemberList} {v : Value}
    (h : validV (.sequence roots) v = true) :
    ∃ fields, v = .seq fields ∧ validSeqB roots fields = true := by
  cases v
  case seq fields => exact ⟨fields, rfl, h⟩
  all_goals simp [validV] at h

theorem validV_choice {ms : ChoiceList} {ext : Bool} {v : Value}
    (h : validV (.choice ms ext) v = true) :
    ∃ n inner, v = .choiceV n inner ∧ validChoiceB ms n inner = true := by
  cases v
  case choiceV n inner => exact ⟨n, inner, rfl, h⟩
  all_goals simp [validV] at h

theorem sizeOf_typeNode_pos (t : TypeNode) : 1 ≤ sizeOf t := by
  cases t <;> simp

/-! ## Encoding shape facts -/

theorem encode_length_definite_ne_nil (n : Nat) : encode_length_definite n ≠ [] := by
  unfold encode_length_definite
  by_cases h : n ≤ 127 <;> simp [h]

theorem standardEncode_shape {tag : List Nat} {encC : Value → Except EncErr (List Nat)}
    {v : Value} {bs : List Nat} (h : standardEncode tag encC v = .ok bs) :
    ∃ c, encC v = .ok c ∧ bs = tag ++ encode_length_definite c.length ++ c := by
  unfold standardEncode at h
  cases hc : encC v with
  | error e =>
    rw [hc] at h
    exact Except.noConfusion h
  | ok c =>
    rw [hc] at h
    cases h
    exact ⟨c, rfl, rfl⟩

/-! ## Probing a wrong-tag element comes back as `TAG_MISMATCH` -/

theorem standardDecode_mismatch {g : Nat} {ind : Bool}
    {decC : List Nat → Nat → Option Nat → Except DecErr (Value × Nat)}
    {data : List Nat} {off b : Nat}
    (hb : data[off]? = some b) (hne : b ≠ g) :
    standardDecode [g] ind decC data off = .ok (.mismatch off) := by
  have h1 : slice data off (off + 1) = [b] := slice_one hb
  simp only [standardDecode, List.length_cons, List.length_nil, Nat.zero_add]
  rw [h1]
  rw [if_neg (by simp [hne])]
  rw [if_neg (by simp)]

theorem pocDecodeF_mismatch {g : Nat} {dp : List Nat → Nat → Nat → Value}
    {comb : List Value → Value} {data : List Nat} {off b fuel : Nat}
    (hb : data[off]? = some b) (hne : b ≠ g) (hne2 : b ≠ g ||| 0x20) :
    pocDecodeF [g] dp comb (fuel + 1) data off = .ok (.mismatch off) := by
  have h1 : slice data off (off + 1) = [b] := slice_one hb
  simp only [pocDecodeF, List.length_cons, List.length_nil, Nat.zero_add]
  rw [h1]
  rw [if_neg (by simp [hne])]
  rw [show setConstructedBit [g] = [g ||| 32] from rfl]
  rw [if_neg (by simp [hne2])]
  rw [if_neg (by simp)]

theorem choiceDecode_mismatch {ms : ChoiceList} {data : List Nat} {off b : Nat}
    (hb : data[off]? = some b) (hb31 : b &&& 0x1f ≠ 0x1f)
    (hlt : off + 1 < data.length)
    (hnb : [b] ∉ choiceTags ms) :
    choiceDecode (interpChoiceMembers ms) false data off = .ok (.mismatch off) := by
  have hcore : skipTagCore data off = .ok (off + 1) := by
    simp only [skipTagCore, hb]
    rw [if_neg hb31]
  have hskip : skip_tag data off = .ok (off + 1) := skip_tag_of_core hcore hlt
  have hrt : read_tag data off = .ok [b] := by
    rw [read_tag_of_skip hskip, slice_one hb]
  simp only [choiceDecode, hrt]
  rw [lookupLastTag_interp_none hnb]
  simp

/-- Probing any probe-safe node at a byte outside its candidate tag set
returns `TAG_MISMATCH` at the same offset (the lookahead conditions make the
tag reads succeed). -/
theorem probe_mismatch {t : TypeNode} {data : List Nat} {off b : Nat} (values : FieldList)
    (hps : t.probeSafe = true) (hb : data[off]? = some b)
    (hb31 : b &&& 0x1f ≠ 0x1f) (hlt : off + 1 < data.length)
    (hbn : [b] ∉ t.tagSet) :
    t.decodeF data off values = .ok (.mismatch off) := by
  cases t with
  | boolean =>
    show standardDecode [1] false boolDecodeContent data off = _
    exact standardDecode_mismatch hb (fun hcon => hbn (by simp [TypeNode.tagSet, hcon]))
  | integer =>
    show standardDecode [2] false intDecodeContent data off = _
    exact standardDecode_mismatch hb (fun hcon => hbn (by simp [TypeNode.tagSet, hcon]))
  | nullT =>
    show standardDecode [5] false nullDecodeContent data off = _
    exact standardDecode_mismatch hb (fun hcon => hbn (by simp [TypeNode.tagSet, hcon]))
  | octetString =>
    show pocDecodeF [4] octetDecodePrim octetCombine (data.length + 1) data off = _
    apply pocDecodeF_mismatch hb
    · intro hcon
      exact hbn (by simp [TypeNode.tagSet, hcon])
    · intro hcon
      exact hbn (by simp [TypeNode.tagSet, hcon])
  | sequence roots =>
    show standardDecode [48] true
      (fun d o len =>
        match membersDecodeContent (interpMembers roots) none d o len with
        | .error e => .error e
        | .ok (fields, e) => .ok (.seq fields, e)) data off = _
    exact standardDecode_mismatch hb (fun hcon => hbn (by simp [TypeNode.tagSet, hcon]))
  | choice ms ext =>
    have hext : ext = false := by simpa [TypeNode.probeSafe] using hps
    subst hext
    show choiceDecode (interpChoiceMembers ms) false data off = _
    exact choiceDecode_mismatch hb hb31 hlt hbn

/-! ## The head byte of any canonical encoding is a matching tag byte -/

theorem encode_head : ∀ (N : Nat) (t : TypeNode), sizeOf t ≤ N →
    ∀ {v : Value} {bs : List Nat},
    t.wfB = true → validV t v = true → t.encodeF v = .ok bs →
    ∃ b rest, bs = b :: rest ∧ rest ≠ [] ∧ [b] ∈ t.tagSet ∧ b &&& 0x1f ≠ 0x1f := by
  intro N
  induction N with
  | zero =>
    intro t hsz
    have := sizeOf_typeNode_pos t
    omega
  | succ N ih =>
    intro t hsz v bs hwf hval henc
    cases t with
    | boolean =>
      rw [show TypeNode.encodeF .boolean v = standardEncode [1] boolEncodeContent v from rfl]
        at henc
      obtain ⟨c, hc, rfl⟩ := standardEncode_shape henc
      refine ⟨1, encode_length_definite c.length ++ c, rfl, ?_, by simp [TypeNode.tagSet],
        by decide⟩
      intro hcon
      exact encode_length_definite_ne_nil c.length (List.append_eq_nil.mp hcon).1
    | integer =>
      rw [show TypeNode.encodeF .integer v = standardEncode [2] intEncodeContent v from rfl]
        at henc
      obtain ⟨c, hc, rfl⟩ := standardEncode_shape henc
      refine ⟨2, encode_length_definite c.length ++ c, rfl, ?_, by simp [TypeNode.tagSet],
        by decide⟩
      intro hcon
      exact encode_length_definite_ne_nil c.length (List.append_eq_nil.mp hcon).1
    | nullT =>
      have h2 : (.ok [5, 0] : Except EncErr (List Nat)) = .ok bs := henc
      injection h2 with h3
      subst h3
      exact ⟨5, [0], rfl, by simp, by simp [TypeNode.tagSet], by decide⟩
    | octetString =>
      rw [show TypeNode.encodeF .octetString v
          = standardEncode [4] octetEncodeContent v from rfl] at henc
      obtain ⟨c, hc, rfl⟩ := standardEncode_shape henc
      refine ⟨4, encode_length_definite c.length ++ c, rfl, ?_, by simp [TypeNode.tagSet],
        by decide⟩
      intro hcon
      exact encode_length_definite_ne_nil c.length (List.append_eq_nil.mp hcon).1
    | sequence roots =>
      rw [show TypeNode.encodeF (.sequence roots) v = standardEncode [48]
          (fun val =>
            match val with
            | .seq fields => membersEncodeContent "Sequence" (interpMembers roots) none fields
            | _ => .error (.typeMismatch "SEQUENCE" [])) v from rfl] at henc
      obtain ⟨c, hc, rfl⟩ := standardEncode_shape henc
      refine ⟨48, encode_length_definite c.length ++ c, rfl, ?_, by simp [TypeNode.tagSet],
        by decide⟩
      intro hcon
      exact encode_length_definite_ne_nil c.length (List.append_eq_nil.mp hcon).1
    | choice ms ext =>
      simp only [TypeNode.wfB, Bool.and_eq_true] at hwf
      obtain ⟨⟨hwfc, hnn⟩, hdisj⟩ := hwf
      obtain ⟨n, inner, rfl, hvc⟩ := validV_choice hval
      obtain ⟨t0, hlk, hval0, hwf0, hsz0, hsub, hdisp⟩ := choice_align hvc hdisj
      have henc0 : t0.encodeF inner = .ok bs := by
        have he1 : TypeNode.encodeF (.choice ms ext) (.choiceV n inner)
            = choiceEncode (interpChoiceMembers ms) (.choiceV n inner) := rfl
        rw [he1] at henc
        simp only [choiceEncode, hlk] at henc
        cases he : t0.encodeF inner with
        | error e =>
          rw [show (interpChoiceMember n t0).encode inner = t0.encodeF inner from rfl, he] at henc
          exact Except.noConfusion henc
        | ok bs2 =>
          rw [show (interpChoiceMember n t0).encode inner = t0.encodeF inner from rfl, he] at henc
          cases henc
          rfl
      have hszle : sizeOf t0 ≤ N := by
        have h2 := sizeOf_choice_members ms ext
        omega
      obtain ⟨b, rest, rfl, hrne, hmem, h31⟩ := ih t0 hszle (hwf0 hwfc) hval0 henc0
      exact ⟨b, rest, rfl, hrne, hsub _ hmem, h31⟩

/-! ## Successful standard decode of an embedded encoding -/

theorem standardDecode_ok {g : Nat} {ind : Bool}
    {decC : List Nat → Nat → Option Nat → Except DecErr (Value × Nat)}
    {data c : List Nat} {off : Nat} {v : Value}
    (hclen : c.length < 256 ^ 127)
    (hsl : slice data off (off + (1 + (encode_length_definite c.length).length + c.length))
        = [g] ++ encode_length_definite c.length ++ c)
    (havail : off + (1 + (encode_length_definite c.length).length + c.length) ≤ data.length)
    (hdec : decC data (off + 1 + (encode_length_definite c.length).length) (some c.length)
        = .ok (v, off + (1 + (encode_length_definite c.length).length + c.length))) :
    standardDecode [g] ind decC data off
      = .ok (.ok v (off + (1 + (encode_length_definite c.length).length + c.length))) := by
  set eld := encode_length_definite c.length with held
  set LL := eld.length with hLL
  set T := 1 + LL + c.length with hT
  have hsl1 : slice data off (off + 1) = [g] := by
    rw [slice_take hsl (show 1 ≤ T by omega)]
    simp
  have hsl2 : slice data (off + 1) ((off + 1) + (LL + c.length)) = eld ++ c := by
    have h2 := slice_drop hsl (show 1 ≤ T by omega)
    rw [show off + T = (off + 1) + (LL + c.length) from by omega] at h2
    rw [h2]
    simp
  have hsl3 : slice data (off + 1) ((off + 1) + LL) = eld := by
    rw [slice_take hsl2 (show LL ≤ LL + c.length by omega), hLL]
    exact List.take_left eld c
  have hdl : decode_length data (off + 1) (!ind) = .ok (some c.length, (off + 1) + LL) := by
    exact decode_length_encoded (!ind) hclen hsl3 (by rw [← held, ← hLL]; omega)
  rw [show standardDecode [g] ind decC data off
      = (if slice data off (off + 1) = [g] then
          match decode_length data (off + 1) (!ind) with
          | .error e => .error e
          | .ok (length, offset1) =>
            match decC data offset1 length with
            | .error e => .error e
            | .ok (v2, endOffset) => .ok (.ok v2 endOffset)
        else if (slice data off (off + 1)).length ≠ 1 then
          .error (.outOfData tagReadMsg off [])
        else .ok (.mismatch off)) from rfl]
  rw [hsl1, if_pos rfl, hdl]
  simp only [hdec]

/-! ## Successful primitive decode of `PrimitiveOrConstructedType` -/

theorem pocDecodeF_prim {g : Nat} {dp : List Nat → Nat → Nat → Value}
    {comb : List Value → Value} {data c : List Nat} {off fuel : Nat}
    (hclen : c.length < 256 ^ 127)
    (hsl : slice data off (off + (1 + (encode_length_definite c.length).length + c.length))
        = [g] ++ encode_length_definite c.length ++ c)
    (havail : off + (1 + (encode_length_definite c.length).length + c.length) ≤ data.length) :
    pocDecodeF [g] dp comb (fuel + 1) data off
      = .ok (.ok (dp data (off + 1 + (encode_length_definite c.length).length) c.length)
          (off + (1 + (encode_length_definite c.length).length + c.length))) := by
  set eld := encode_length_definite c.length with held
  set LL := eld.length with hLL
  set T := 1 + LL + c.length with hT
  have hsl1 : slice data off (off + 1) = [g] := by
    rw [slice_take hsl (show 1 ≤ T by omega)]
    simp
  have hsl2 : slice data (off + 1) ((off + 1) + (LL + c.length)) = eld ++ c := by
    have h2 := slice_drop hsl (show 1 ≤ T by omega)
    rw [show off + T = (off + 1) + (LL + c.length) from by omega] at h2
    rw [h2]
    simp
  have hsl3 : slice data (off + 1) ((off + 1) + LL) = eld := by
    rw [slice_take hsl2 (show LL ≤ LL + c.length by omega), hLL]
    exact List.take_left eld c
  have hdl : decode_length data (off + 1) false = .ok (some c.length, (off + 1) + LL) :=
    decode_length_encoded false hclen hsl3 (by rw [← held, ← hLL]; omega)
  rw [show pocDecodeF [g] dp comb (fuel + 1) data off
      = (if slice data off (off + 1) = [g] then
          match decode_length data (off + 1) false with
          | .error e => .error e
          | .ok (some length, offset1) => .ok (.ok (dp data offset1 length) (offset1 + length))
          | .ok (none, offset1) => .error (.internal "indefinite primitive" offset1 [])
        else if slice data off (off + 1) = setConstructedBit [g] then
          match decode_length data (off + 1) false with
          | .error e => .error e
          | .ok (length, offset1) =>
            match pocSegsF [g] dp comb fuel data offset1
                (length.map fun l => offset1 + l) [] with
            | .error e => .error e
            | .ok (segments, offset2) => .ok (.ok (comb segments) offset2)
        else if (slice data off (off + 1)).length ≠ 1 then
          .error (.outOfData tagReadMsg off [])
        else .ok (.mismatch off)) from rfl]
  rw [hsl1, if_pos rfl, hdl]
  have hoff : (off + 1) + LL + c.length = off + T := by omega
  simp only [hoff]

/-! ## Post-loop helpers for an all-optional leftover list -/

theorem installDefaults_all_optional {rem : List MemberI} {values : FieldList}
    (h : ∀ m ∈ rem, m.optional = true) : installDefaults rem values = values := by
  induction rem with
  | nil => rfl
  | cons m rest ih =>
    have hm := h m (by simp)
    simp [installDefaults, hm, ih (fun m2 hm2 => h m2 (by simp [hm2]))]

/-! ## Canonical value maps mention only declared member names -/

theorem validSeq_lookup_none : ∀ {ms : MemberList} {fs : FieldList},
    validSeqB ms fs = true → ∀ {n : String}, n ∉ memberNames ms → fs.lookup n = none := by
  intro ms
  induction ms using memberListInduction with
  | hnil =>
    intro fs hv n _
    cases fs with
    | nil => rfl
    | cons k v r => simp [validSeqB, FieldList.isEmpty] at hv
  | hcons mn opt dflt t rest ih =>
    intro fs hv n hn
    simp only [memberNames, List.mem_cons, not_or] at hn
    obtain ⟨hn1, hn2⟩ := hn
    cases fs with
    | nil => rfl
    | cons fn fv ftail =>
      simp only [validSeqB] at hv
      by_cases hfn : fn = mn
      · rw [if_pos hfn] at hv
        simp only [Bool.and_eq_true] at hv
        obtain ⟨_, hv3⟩ := hv
        show FieldList.lookup (.cons fn fv ftail) n = none
        simp only [FieldList.lookup]
        rw [if_neg (show ¬fn = n from fun hcon => hn1 (by rw [← hcon, hfn]))]
        exact ih hv3 hn2
      · rw [if_neg hfn] at hv
        simp only [Bool.and_eq_true] at hv
        obtain ⟨_, hv3⟩ := hv
        exact ih hv3 hn2

/-! ## Member encoding only reads the members own field -/

theorem encodeMember_congr {tn : String} {m : MemberI} {f1 f2 : FieldList}
    (h : f1.lookup m.name = f2.lookup m.name) :
    encodeMember tn m f1 = encodeMember tn m f2 := by
  unfold encodeMember
  rw [h]

theorem encodeRootMembers_congr {tn : String} {members : List MemberI} {f1 f2 : FieldList}
    (h : ∀ m ∈ members, f1.lookup m.name = f2.lookup m.name) :
    encodeRootMembers tn members f1 = encodeRootMembers tn members f2 := by
  induction members with
  | nil => rfl
  | cons m rest ih =>
    simp only [encodeRootMembers]
    rw [encodeMember_congr (h m (by simp)), ih (fun m2 hm2 => h m2 (by simp [hm2]))]

/-! ## One worklist pass over a member layout -/

theorem decodePass_layout {data : List Nat} {endOff : Nat} {ms : List MemberI}
    {fields : FieldList} {off : Nat}
    (hl : MLayout data endOff ms fields off) :
    ∀ (values0 : FieldList),
    (∀ m ∈ ms, values0.lookup m.name = none) →
    (ms.map MemberI.name).Nodup →
    ∃ undec succ,
      decodePass data (some endOff) ms values0 off (decide (off ≥ endOff)) =
        .ok (undec, values0.append fields, endOff, true, succ) ∧
      ∀ m ∈ undec, m.optional = true := by
  induction hl with
  | nil offset hoff =>
    intro values0 _ _
    refine ⟨[], false, ?_, by simp⟩
    subst hoff
    simp [decodePass, FieldList.append_nil]
  | present m ms2 v fields2 offset offset2 hdec hlt hle hrest ih =>
    intro values0 hfresh hnodup
    have hout : (decide (offset ≥ endOff)) = false := by
      simp only [decide_eq_false_iff_not]
      omega
    have hfresh2 : ∀ m2 ∈ ms2, (values0.insert m.name v).lookup m2.name = none := by
      intro m2 hm2
      rw [FieldList.insert_fresh v (hfresh m (by simp)), FieldList.lookup_append_single,
        hfresh m2 (by simp [hm2])]
      have hne : m.name ≠ m2.name := by
        simp only [List.map_cons, List.nodup_cons] at hnodup
        intro hcon
        exact hnodup.1 (by rw [hcon]; exact List.mem_map_of_mem _ hm2)
      simp [Option.elim, hne]
    have hnodup2 : (ms2.map MemberI.name).Nodup := by
      simp only [List.map_cons, List.nodup_cons] at hnodup
      exact hnodup.2
    obtain ⟨undec, succ, hpass, hopts⟩ := ih (values0.insert m.name v) hfresh2 hnodup2
    refine ⟨undec, true, ?_, hopts⟩
    have hins : (values0.insert m.name v).append fields2
        = values0.append (.cons m.name v fields2) := by
      rw [FieldList.insert_fresh v (hfresh m (by simp)), FieldList.append_assoc]
      rfl
    rw [hins] at hpass
    simp only [decodePass, hout, Bool.false_eq_true, if_false, hdec values0,
      show is_end_of_data data offset2 (some endOff)
        = .ok (decide (offset2 ≥ endOff), offset2) from rfl, hpass]
  | absent m ms2 fields2 offset hopt hprobe hrest ih =>
    intro values0 hfresh hnodup
    have hfresh2 : ∀ m2 ∈ ms2, values0.lookup m2.name = none :=
      fun m2 hm2 => hfresh m2 (by simp [hm2])
    have hnodup2 : (ms2.map MemberI.name).Nodup := by
      simp only [List.map_cons, List.nodup_cons] at hnodup
      exact hnodup.2
    obtain ⟨undec, succ, hpass, hopts⟩ := ih values0 hfresh2 hnodup2
    refine ⟨m :: undec, succ, ?_, ?_⟩
    · by_cases hoff : offset ≥ endOff
      · have hout : decide (offset ≥ endOff) = true := decide_eq_true hoff
        rw [hout] at hpass
        simp only [decodePass, hout, if_true, hpass]
      · have hout : decide (offset ≥ endOff) = false := by
          simp only [decide_eq_false_iff_not]
          exact hoff
        rw [hout] at hpass
        have hdecm := hprobe values0 (by omega)
        simp only [decodePass, hout, Bool.false_eq_true, if_false, hdecm,
          show is_end_of_data data offset (some endOff)
            = .ok (decide (offset ≥ endOff), offset) from rfl, hout, hpass]
    · intro m2 hm2
      rcases List.mem_cons.mp hm2 with h1 | h1
      · rw [h1]
        exact hopt
      · exact hopts m2 h1

/-! ## The full member-decoding loop over a layout -/

theorem decodeMembers_layout {data : List Nat} {endOff : Nat} {ms : List MemberI}
    {fields : FieldList} {off : Nat}
    (hl : MLayout data endOff ms fields off)
    (hnodup : (ms.map MemberI.name).Nodup) :
    decodeMembers data (some endOff) ms .nil off false = .ok (fields, endOff, true) := by
  obtain ⟨undec, succ, hpass, hopt⟩ := decodePass_layout hl .nil (fun m _ => rfl) hnodup
  rw [show FieldList.append .nil fields = fields from rfl] at hpass
  unfold decodeMembers
  simp only [decodeMembersLoop,
    show is_end_of_data data off (some endOff) = .ok (decide (off ≥ endOff), off) from rfl,
    hpass, if_true, handleRemaining_all_ok (fun m hm => Or.inl (hopt m hm)),
    installDefaults_all_optional hopt]

theorem membersDecodeContent_layout {roots : MemberList} {fields : FieldList}
    {data : List Nat} {off L : Nat}
    (hl : MLayout data (off + L) (interpMembers roots) fields off)
    (hnodup : nodupB (memberNames roots) = true) :
    membersDecodeContent (interpMembers roots) none data off (some L)
      = .ok (fields, off + L) := by
  have hnd : ((interpMembers roots).map MemberI.name).Nodup := by
    rw [interpMembers_names]
    exact nodupB_nodup hnodup
  have hdm := decodeMembers_layout hl hnd
  simp only [membersDecodeContent, Option.map, hdm, if_true]

/-! ## The layout of the in-order member encodings of a canonical value -/

theorem layout_of_valid (B : Nat) (hRT : ∀ t2 : TypeNode, sizeOf t2 < B → RoundTrips t2) :
    ∀ (roots : MemberList), sizeOf roots < B →
    wfMembersB roots = true → nodupB (memberNames roots) = true → seqTagsOkB roots = true →
    ∀ {fields : FieldList} {c : List Nat},
    validSeqB roots fields = true →
    encodeRootMembers "Sequence" (interpMembers roots) fields = .ok c →
    c.length < 256 ^ 127 →
    ∀ {data : List Nat} {off : Nat},
    slice data off (off + c.length) = c →
    off + c.length ≤ data.length →
    MLayout data (off + c.length) (interpMembers roots) fields off ∧
      (c = [] ∨ ∃ b brest, c = b :: brest ∧ brest ≠ [] ∧
        [b] ∈ memberTagsUnion roots ∧ b &&& 0x1f ≠ 0x1f) := by
  intro roots
  induction roots using memberListInduction with
  | hnil =>
    intro _ _ _ _ fields c hv henc hclen data off hsl havail
    have hfe : fields = .nil := by
      cases fields with
      | nil => rfl
      | cons k v r => simp [validSeqB, FieldList.isEmpty] at hv
    subst hfe
    have hce : c = [] := by
      have h2 : (.ok [] : Except EncErr (List Nat)) = .ok c := henc
      injection h2 with h3
      exact h3.symm
    subst hce
    exact ⟨MLayout.nil off (by simp), Or.inl rfl⟩
  | hcons mn opt dflt t rest ih =>
    intro hsz hwf hnodup htags fields c hv henc hclen data off hsl havail
    simp only [wfMembersB, Bool.and_eq_true] at hwf
    obtain ⟨hwft, hwfrest⟩ := hwf
    simp only [memberNames, nodupB, Bool.and_eq_true, Bool.not_eq_true',
      decide_eq_false_iff_not] at hnodup
    obtain ⟨hmn_nin, hnodup2⟩ := hnodup
    simp only [seqTagsOkB, Bool.and_eq_true] at htags
    obtain ⟨htag1, htags2⟩ := htags
    have hszrest : sizeOf rest < B := by
      have := sizeOf_member_tail mn opt dflt t rest
      omega
    have hszt : sizeOf t < B := by
      have := sizeOf_member_head mn opt dflt t rest
      omega
    rw [interpMembers_cons] at henc
    simp only [encodeRootMembers] at henc
    cases fields with
    | cons fn fv ftail =>
      simp only [validSeqB] at hv
      by_cases hfn : fn = mn
      · subst hfn
        rw [if_pos rfl] at hv
        simp only [Bool.and_eq_true] at hv
        obtain ⟨⟨hvt, hnd⟩, hvrest⟩ := hv
        have hndf : t.isDefaultI dflt fv = false := by simpa using hnd
        cases hbs1 : t.encodeF fv with
        | error e =>
          have hem : encodeMember "Sequence" (interpMember fn opt dflt t) (.cons fn fv ftail)
              = .error (e.addLoc fn) := by
            unfold encodeMember interpMember
            simp only [FieldList.lookup, eq_self_iff_true, if_true, hndf, Bool.false_eq_true,
              if_false, hbs1]
          simp only [hem] at henc
          exact Except.noConfusion henc
        | ok bs1 =>
          have hem : encodeMember "Sequence" (interpMember fn opt dflt t) (.cons fn fv ftail)
              = .ok bs1 := by
            unfold encodeMember interpMember
            simp only [FieldList.lookup, eq_self_iff_true, if_true, hndf, Bool.false_eq_true,
              if_false, hbs1]
          simp only [hem] at henc
          cases hc2 : encodeRootMembers "Sequence" (interpMembers rest) (.cons fn fv ftail) with
          | error e =>
            simp only [hc2] at henc
            exact Except.noConfusion henc
          | ok c2 =>
            simp only [hc2] at henc
            injection henc with hceq
            have hlen12 : bs1.length + c2.length = c.length := by
              rw [← hceq]
              simp
            have hc2eq : encodeRootMembers "Sequence" (interpMembers rest) ftail = .ok c2 := by
              rw [← hc2]
              apply encodeRootMembers_congr
              intro m2 hm2
              have hm2n : m2.name ∈ memberNames rest := by
                rw [← interpMembers_names]
                exact List.mem_map_of_mem _ hm2
              have hne : ¬fn = m2.name := fun hcon => hmn_nin (by rw [hcon]; exact hm2n)
              simp [FieldList.lookup, hne]
            obtain ⟨b, brest, hbs1e, hbrne, hbmem, hb31⟩ :=
              encode_head (sizeOf t) t le_rfl hwft hvt hbs1
            have hbl := List.length_pos.mpr hbrne
            have hbs1len : 2 ≤ bs1.length := by
              rw [hbs1e]
              simp
              omega
            have hsl1 : slice data off (off + bs1.length) = bs1 := by
              rw [slice_take hsl (by omega), ← hceq]
              exact List.take_left bs1 c2
            have hdect : ∀ values, t.decodeF data off values
                = .ok (.ok fv (off + bs1.length)) := by
              intro values
              exact hRT t hszt fv bs1 data off values hwft hvt hbs1 (by omega) hsl1 (by omega)
            have hslc2 : slice data (off + bs1.length) ((off + bs1.length) + c2.length)
                = c2 := by
              have h2 := slice_drop hsl (show bs1.length ≤ c.length by omega)
              rw [show off + c.length = (off + bs1.length) + c2.length from by omega] at h2
              rw [h2, ← hceq]
              exact List.drop_left bs1 c2
            obtain ⟨hlrest, _⟩ := ih hszrest hwfrest hnodup2 htags2 hvrest hc2eq
              (by omega) hslc2 (by omega)
            rw [show (off + bs1.length) + c2.length = off + c.length from by omega] at hlrest
            constructor
            · rw [interpMembers_cons]
              exact MLayout.present (interpMember fn opt dflt t) (interpMembers rest) fv ftail
                off (off + bs1.length) (fun values => hdect values) (by omega) (by omega) hlrest
            · right
              refine ⟨b, brest ++ c2, ?_, ?_, ?_, hb31⟩
              · rw [← hceq, hbs1e]
                rfl
              · intro hcon
                exact hbrne (List.append_eq_nil.mp hcon).1
              · exact show [b] ∈ t.tagSet ++ memberTagsUnion rest from
                  List.mem_append_left _ hbmem
      · rw [if_neg hfn] at hv
        simp only [Bool.and_eq_true] at hv
        obtain ⟨⟨hopt2, hps⟩, hvrest⟩ := hv
        have hlk : FieldList.lookup (.cons fn fv ftail) mn = none :=
          validSeq_lookup_none hvrest hmn_nin
        have hem : encodeMember "Sequence" (interpMember mn opt dflt t) (.cons fn fv ftail)
            = .ok [] := by
          unfold encodeMember interpMember
          simp only [hlk, hopt2, if_true]
        simp only [hem] at henc
        cases hc2 : encodeRootMembers "Sequence" (interpMembers rest) (.cons fn fv ftail) with
        | error e =>
          simp only [hc2] at henc
          exact Except.noConfusion henc
        | ok c2 =>
          simp only [hc2] at henc
          injection henc with hceq
          rw [List.nil_append] at hceq
          subst hceq
          obtain ⟨hlrest, hheadrest⟩ := ih hszrest hwfrest hnodup2 htags2 hvrest hc2
            hclen hsl havail
          constructor
          · rw [interpMembers_cons]
            refine MLayout.absent (interpMember mn opt dflt t) (interpMembers rest)
              (.cons fn fv ftail) off ?_ ?_ hlrest
            · exact hopt2
            · intro values hofflt
              rcases hheadrest with hce | ⟨b, brest, hceb, hbrne, hbmem, hb31⟩
              · exfalso
                rw [hce] at hofflt
                simp at hofflt
              · have hb : data[off]? = some b := by
                  have h0 := getElem?_of_slice hsl (show 0 < c2.length by rw [hceb]; simp)
                  rw [Nat.add_zero] at h0
                  rw [h0, hceb]
                  simp
                have hbl := List.length_pos.mpr hbrne
                have hlen2 : 2 ≤ c2.length := by
                  rw [hceb]
                  simp
                  omega
                have hdisj : disjointTagsB t.tagSet (memberTagsUnion rest) = true := by
                  rw [hopt2] at htag1
                  simpa using htag1
                have hnotmem : [b] ∉ t.tagSet :=
                  fun hcon => disjointTagsB_not_mem hdisj hcon hbmem
                exact probe_mismatch values hps hb hb31 (by omega) hnotmem
          · rcases hheadrest with hce | ⟨b, brest, hceb, hbrne, hbmem, hb31⟩
            · exact Or.inl hce
            · exact Or.inr ⟨b, brest, hceb, hbrne,
                show [b] ∈ t.tagSet ++ memberTagsUnion rest from
                  List.mem_append_right _ hbmem, hb31⟩
    | nil =>
      simp only [validSeqB, Bool.and_eq_true] at hv
      obtain ⟨⟨hopt2, hps⟩, hvrest⟩ := hv
      have hem : encodeMember "Sequence" (interpMember mn opt dflt t) .nil = .ok [] := by
        unfold encodeMember interpMember
        simp only [FieldList.lookup, hopt2, if_true]
      simp only [hem] at henc
      cases hc2 : encodeRootMembers "Sequence" (interpMembers rest) .nil with
      | error e =>
        simp only [hc2] at henc
        exact Except.noConfusion henc
      | ok c2 =>
        simp only [hc2] at henc
        injection henc with hceq
        rw [List.nil_append] at hceq
        subst hceq
        obtain ⟨hlrest, hheadrest⟩ := ih hszrest hwfrest hnodup2 htags2 hvrest hc2
          hclen hsl havail
        constructor
        · rw [interpMembers_cons]
          refine MLayout.absent (interpMember mn opt dflt t) (interpMembers rest)
            .nil off ?_ ?_ hlrest
          · exact hopt2
          · intro values hofflt
            rcases hheadrest with hce | ⟨b, brest, hceb, hbrne, hbmem, hb31⟩
            · exfalso
              rw [hce] at hofflt
              simp at hofflt
            · have hb : data[off]? = some b := by
                have h0 := getElem?_of_slice hsl (show 0 < c2.length by rw [hceb]; simp)
                rw [Nat.add_zero] at h0
                rw [h0, hceb]
                simp
              have hbl := List.length_pos.mpr hbrne
              have hlen2 : 2 ≤ c2.length := by
                rw [hceb]
                simp
                omega
              have hdisj : disjointTagsB t.tagSet (memberTagsUnion rest) = true := by
                rw [hopt2] at htag1
                simpa using htag1
              have hnotmem : [b] ∉ t.tagSet :=
                fun hcon => disjointTagsB_not_mem hdisj hcon hbmem
              exact probe_mismatch values hps hb hb31 (by omega) hnotmem
        · rcases hheadrest with hce | ⟨b, brest, hceb, hbrne, hbmem, hb31⟩
          · exact Or.inl hce
          · exact Or.inr ⟨b, brest, hceb, hbrne,
              show [b] ∈ t.tagSet ++ memberTagsUnion rest from
                List.mem_append_right _ hbmem, hb31⟩

/-! ## Length and content-slice bookkeeping of a tag-length-value encoding -/

theorem tlv_length (g : Nat) (c : List Nat) :
    ([g] ++ encode_length_definite c.length ++ c).length
      = 1 + (encode_length_definite c.length).length + c.length := by
  simp only [List.length_append, List.length_cons, List.length_nil]

theorem slice_content {g : Nat} {data c : List Nat} {off : Nat}
    (hsl : slice data off (off + (1 + (encode_length_definite c.length).length + c.length))
        = [g] ++ encode_length_definite c.length ++ c) :
    slice data (off + 1 + (encode_length_definite c.length).length)
        ((off + 1 + (encode_length_definite c.length).length) + c.length) = c := by
  set eld := encode_length_definite c.length with held
  set LL := eld.length with hLL
  have h2 := slice_drop hsl (show 1 + LL ≤ 1 + LL + c.length by omega)
  rw [show off + (1 + LL + c.length) = (off + (1 + LL)) + c.length from by omega] at h2
  rw [show off + 1 + LL = off + (1 + LL) from by omega]
  rw [h2]
  have h4 : ([g] ++ eld).length = 1 + LL := by
    simp only [List.length_append, List.length_cons, List.length_nil]
  rw [show ([g] ++ eld ++ c) = ([g] ++ eld) ++ c from rfl, ← h4]
  exact List.drop_left _ _

/-! ## The round-trip theorem: well-formed schemas invert canonical encodings -/

theorem roundTrips_all : ∀ (N : Nat) (t : TypeNode), sizeOf t ≤ N → RoundTrips t := by
  intro N
  induction N with
  | zero =>
    intro t hsz
    have := sizeOf_typeNode_pos t
    omega
  | succ N ih =>
    intro t hsz v bs data off values hwf hval henc hlen hsl havail
    cases t with
    | boolean =>
      obtain ⟨b, rfl⟩ := validV_boolean hval
      rw [show TypeNode.encodeF .boolean (.bool b)
          = standardEncode [1] boolEncodeContent (.bool b) from rfl] at henc
      obtain ⟨c, hc, rfl⟩ := standardEncode_shape henc
      have hce : c = [0xff * (if b then 1 else 0)] := by
        have h2 : (.ok [0xff * (if b then 1 else 0)] : Except EncErr (List Nat)) = .ok c := hc
        injection h2 with h3
        exact h3.symm
      subst hce
      rw [tlv_length] at hsl havail hlen ⊢
      show standardDecode [1] false boolDecodeContent data off = _
      refine standardDecode_ok ?_ hsl havail ?_
      · omega
      · rw [show (encode_length_definite
            ([0xff * (if b then 1 else 0)] : List Nat).length).length = 1 from rfl]
        have hz : data[off + 1 + 1]? = some (0xff * (if b then 1 else 0)) := by
          have h0 := getElem?_of_slice hsl (show (2:Nat) < 1 + (encode_length_definite
              ([0xff * (if b then 1 else 0)] : List Nat).length).length
              + ([0xff * (if b then 1 else 0)] : List Nat).length from by
                norm_num [encode_length_definite])
          rw [show off + 1 + 1 = off + 2 from by omega, h0]
          simp [encode_length_definite]
        rw [show (some (([0xff * (if b then 1 else 0)] : List Nat).length)) = some 1 from rfl]
        simp only [boolDecodeContent, hz]
        cases b <;> simp
    | integer =>
      obtain ⟨n, rfl⟩ := validV_integer hval
      rw [show TypeNode.encodeF .integer (.int n)
          = standardEncode [2] intEncodeContent (.int n) from rfl] at henc
      obtain ⟨c, hc, rfl⟩ := standardEncode_shape henc
      have hce : c = encode_signed_integer n := by
        have h2 : (.ok (encode_signed_integer n) : Except EncErr (List Nat)) = .ok c := hc
        injection h2 with h3
        exact h3.symm
      subst hce
      rw [tlv_length] at hsl havail hlen ⊢
      show standardDecode [2] false intDecodeContent data off = _
      refine standardDecode_ok ?_ hsl havail ?_
      · omega
      · have hslc := slice_content hsl
        simp only [intDecodeContent, hslc]
        rw [show encode_signed_integer n = toSignedBE n (signedByteLength n) from rfl,
          fromSigned_toSigned (show 1 ≤ signedByteLength n from by unfold signedByteLength; omega)
            (fitsSigned_signedByteLength n)]
        have harr : ∀ a b2 c2 : Nat, a + 1 + b2 + c2 = a + (1 + b2 + c2) := by
          intro a b2 c2
          omega
        rw [harr]
    | nullT =>
      have hnull := validV_null hval
      subst hnull
      have hbs : bs = [5, 0] := by
        have h2 : (.ok [5, 0] : Except EncErr (List Nat)) = .ok bs := henc
        injection h2 with h3
        exact h3.symm
      subst hbs
      show standardDecode [5] false nullDecodeContent data off = _
      exact @standardDecode_ok 5 false nullDecodeContent data [] off .null
        (Nat.pos_pow_of_pos 127 (by norm_num)) hsl havail rfl
    | octetString =>
      obtain ⟨cv, rfl⟩ := validV_octet hval
      rw [show TypeNode.encodeF .octetString (.bytes cv)
          = standardEncode [4] octetEncodeContent (.bytes cv) from rfl] at henc
      obtain ⟨c, hc, rfl⟩ := standardEncode_shape henc
      have hce : c = cv := by
        have h2 : (.ok cv : Except EncErr (List Nat)) = .ok c := hc
        injection h2 with h3
        exact h3.symm
      subst hce
      rw [tlv_length] at hsl havail hlen ⊢
      show pocDecodeF [4] octetDecodePrim octetCombine (data.length + 1) data off = _
      rw [pocDecodeF_prim (by omega) hsl havail]
      have hslc := slice_content hsl
      simp only [octetDecodePrim, hslc]
    | sequence roots =>
      simp only [TypeNode.wfB, Bool.and_eq_true] at hwf
      obtain ⟨⟨hwfm, hnodup⟩, htags⟩ := hwf
      obtain ⟨fields, rfl, hvs⟩ := validV_sequence hval
      rw [show TypeNode.encodeF (.sequence roots) (.seq fields) = standardEncode [48]
          (fun val =>
            match val with
            | .seq fields => membersEncodeContent "Sequence" (interpMembers roots) none fields
            | _ => .error (.typeMismatch "SEQUENCE" [])) (.seq fields) from rfl] at henc
      obtain ⟨c, hc, rfl⟩ := standardEncode_shape henc
      have hc2 : membersEncodeContent "Sequence" (interpMembers roots) none fields = .ok c := hc
      have hc3 : encodeRootMembers "Sequence" (interpMembers roots) fields = .ok c := by
        unfold membersEncodeContent at hc2
        cases he : encodeRootMembers "Sequence" (interpMembers roots) fields with
        | error e =>
          rw [he] at hc2
          exact Except.noConfusion hc2
        | ok bs2 =>
          rw [he] at hc2
          have hc4 : (.ok bs2 : Except EncErr (List Nat)) = .ok c := hc2
          injection hc4 with h5
      rw [tlv_length] at hsl havail hlen ⊢
      show standardDecode [48] true (fun d o len =>
          match membersDecodeContent (interpMembers roots) none d o len with
          | .error e => .error e
          | .ok (fields, e) => .ok (.seq fields, e)) data off = _
      refine standardDecode_ok (by omega) hsl havail ?_
      have hslc := slice_content hsl
      have hRT2 : ∀ t2 : TypeNode, sizeOf t2 < N + 1 → RoundTrips t2 := by
        intro t2 h2
        exact ih t2 (by omega)
      have hszroots : sizeOf roots < N + 1 := by
        have := sizeOf_sequence_members roots
        omega
      obtain ⟨hlayout, _⟩ := layout_of_valid (N + 1) hRT2 roots hszroots hwfm hnodup htags hvs
        hc3 (by omega) hslc (by omega)
      have hmdc := membersDecodeContent_layout hlayout hnodup
      simp only [hmdc]
      rw [show (off + 1 + (encode_length_definite c.length).length) + c.length
          = off + (1 + (encode_length_definite c.length).length + c.length) from by omega]
    | choice ms ext =>
      simp only [TypeNode.wfB, Bool.and_eq_true] at hwf
      obtain ⟨⟨hwfc, hnn⟩, hdisj⟩ := hwf
      obtain ⟨n, inner, rfl, hvc⟩ := validV_choice hval
      obtain ⟨t0, hlk, hval0, hwf0, hsz0, hsub, hdisp⟩ := choice_align hvc hdisj
      have henc0 : t0.encodeF inner = .ok bs := by
        have he1 : TypeNode.encodeF (.choice ms ext) (.choiceV n inner)
            = choiceEncode (interpChoiceMembers ms) (.choiceV n inner) := rfl
        rw [he1] at henc
        simp only [choiceEncode, hlk] at henc
        cases he : t0.encodeF inner with
        | error e =>
          rw [show (interpChoiceMember n t0).encode inner = t0.encodeF inner from rfl, he] at henc
          exact Except.noConfusion henc
        | ok bs2 =>
          rw [show (interpChoiceMember n t0).encode inner = t0.encodeF inner from rfl, he] at henc
          cases henc
          rfl
      obtain ⟨b, brest, hbse, hbrne, hbmem, hb31⟩ :=
        encode_head (sizeOf t0) t0 le_rfl (hwf0 hwfc) hval0 henc0
      have hbl := List.length_pos.mpr hbrne
      have hbs2 : 2 ≤ bs.length := by
        rw [hbse]
        simp
        omega
      have hb : data[off]? = some b := by
        have h0 := getElem?_of_slice hsl (show 0 < bs.length by omega)
        rw [Nat.add_zero] at h0
        rw [h0, hbse]
        simp
      have hcore : skipTagCore data off = .ok (off + 1) := by
        simp only [skipTagCore, hb]
        rw [if_neg hb31]
      have hskip : skip_tag data off = .ok (off + 1) := skip_tag_of_core hcore (by omega)
      have hrtag : read_tag data off = .ok [b] := by
        rw [read_tag_of_skip hskip, slice_one hb]
      have hdec0 : t0.decodeF data off .nil = .ok (.ok inner (off + bs.length)) := by
        have hszle : sizeOf t0 ≤ N := by
          have h2 := sizeOf_choice_members ms ext
          omega
        exact ih t0 hszle inner bs data off .nil (hwf0 hwfc) hval0 henc0 hlen hsl havail
      show choiceDecode (interpChoiceMembers ms) ext data off = _
      simp only [choiceDecode, hrtag, hdisp [b] hbmem,
        show (interpChoiceMember n t0).decode data off .nil = t0.decodeF data off .nil from rfl,
        hdec0]
      rfl

/-- C1 (corrected form): under the schema distinguishability conditions `wfB`
(unique member names, pairwise-disjoint Choice tags, optional members
distinguishable from all later members) a canonical value (`validV`: members
in declared order, no member equal to its default, omitted members optional
and probe-safe) decodes from its own encoding back to itself, consuming the
whole encoding. -/
theorem claim_roundtrip_amended (t : TypeNode) (v : Value) (bs : List Nat)
    (hwf : t.wfB = true) (hval : validV t v = true)
    (henc : compiledEncode t v = .ok bs) (hlen : bs.length < 256 ^ 127) :
    compiledDecodeWithLength t bs = .ok (v, bs.length) ∧ compiledDecode t bs = .ok v := by
  have henc2 : t.encodeF v = .ok bs := by
    unfold compiledEncode at henc
    cases he : t.encodeF v with
    | error e =>
      rw [he] at henc
      exact Except.noConfusion henc
    | ok bs2 =>
      rw [he] at henc
      cases henc
      rfl
  have hdec := roundTrips_all (sizeOf t) t le_rfl v bs bs 0 .nil hwf hval henc2 hlen
    (by simp [slice]) (by omega)
  rw [Nat.zero_add] at hdec
  constructor
  · unfold compiledDecodeWithLength
    simp only [hdec]
  · unfold compiledDecode compiledDecodeWithLength
    simp only [hdec]

/-- C1 (counterexample to the literal claim): for the well-formed schema
`cexNode` — an optional extensible CHOICE member `a` before a mandatory
INTEGER member `b` — encoding the value that omits `a` succeeds, but decoding
the exact encoding fails with `MissingMandatoryFieldError` on `b`: the
absent extensible Choice's unknown-tag handler silently swallows `b`'s
element instead of reporting a tag mismatch. -/
theorem claim_roundtrip_counterexample :
    cexNode.wfB = true ∧
    compiledEncode cexNode cexValue = .ok [48, 3, 2, 1, 5] ∧
    compiledDecodeWithLength cexNode [48, 3, 2, 1, 5] =
      .error (.missingMandatory "b" 5 ["SEQUENCE", "b"]) :=
  ⟨rfl, rfl, rfl⟩

/-- C1 witness: the amended round-trip theorem applied to the concrete sample
schema and value. -/
theorem claim_roundtrip_witness :
    compiledDecodeWithLength sampleSeqNode [48, 6, 1, 1, 255, 2, 1, 5]
        = .ok (sampleSeqValue, 8) ∧
    compiledDecode sampleSeqNode [48, 6, 1, 1, 255, 2, 1, 5] = .ok sampleSeqValue := by
  have h := claim_roundtrip_amended sampleSeqNode sampleSeqValue [48, 6, 1, 1, 255, 2, 1, 5]
    (by rfl) (by rfl) (by rfl)
    (by
      show (8:Nat) < 256 ^ 127
      calc (8:Nat) < 256 := by norm_num
      _ ≤ 256 ^ 127 := Nat.le_self_pow (by norm_num) 256)
  exact h

end Ber
